import Mathlib

/-!
Verification of the SM2349 GM/T cryptographic reference implementation
(SM2 signature and public-key encryption, SM4 block cipher, ZUC stream
cipher with its 128-EEA3/128-EIA3 constructions).

The C sources are shallowly embedded: machine integers become `Nat` with
explicit reduction modulo `2 ^ 32` where C `unsigned int` arithmetic
overflows, byte buffers become `List Nat` of values below 256, and
fallible functions return `Except`.  The MIRACL big-integer / elliptic
curve backend is external to the repository; the curve group generated by
the base point `G` (the whole curve group, since the cofactor is 1 and
the order `n` is prime) is modelled as indices modulo `n`, with the
affine coordinate maps of `j * G` kept as abstract parameters
`xfun yfun : Nat → Nat`.  The SM3 hash (whose source is not part of the
repository) is likewise an abstract parameter `hash : List Nat → List Nat`
producing 32-byte digests.
-/

set_option maxRecDepth 100000

/-- Binary modular exponentiation with explicit fuel, used to certify
primality of the 256-bit SM2 group order inside the kernel. -/
def powModAux : ℕ → ℕ → ℕ → ℕ → ℕ
  | 0, _, _, m => 1 % m
  | fuel + 1, a, e, m =>
    if e = 0 then 1 % m
    else
      let h := powModAux fuel (a * a % m) (e / 2) m
      if e % 2 = 1 then a * h % m else h

/-- Modular exponentiation `a ^ e % m` computed by binary squaring. -/
def powMod (a e m : ℕ) : ℕ := powModAux 300 a e m

/-- The SM2 group order `n` (the constant `SM2_n` of `SM2_sv.h` and
`SM2_ENC.c`, read as a 32-byte big-endian integer). -/
def SM2n : ℕ := 0xFFFFFFFEFFFFFFFFFFFFFFFFFFFFFFFF7203DF6B21C6052B53BBF40939D54123


/-! SM4 block cipher (`SM4.c`).  The S-box, `FK` and `CK` tables and the
`SM4_Rotl32` macro live in the header `SM4.h`, which is not among the
sources; the tables are kept as parameters `sbox`, `fk`, `ck` and the
rotation is modelled from the spec as the standard 32-bit left rotation. -/

/-- Left rotation of a 32-bit word, with the C `unsigned int` overflow of
the left shift made explicit. -/
def rotl32 (x n : ℕ) : ℕ := ((x <<< n) % 2 ^ 32) ||| (x >>> (32 - n))

/-- Pack four consecutive bytes of `B` starting at index `4 * j` into a
32-bit big-endian word (the `(B[4j] << 24) | ... | B[4j+3]` idiom). -/
def word4 (B : List ℕ) (j : ℕ) : ℕ :=
  (B.getD (4 * j) 0) <<< 24 ||| (B.getD (4 * j + 1) 0) <<< 16 |||
    (B.getD (4 * j + 2) 0) <<< 8 ||| B.getD (4 * j + 3) 0

/-- Split a 32-bit word into its four big-endian bytes (the
`(X >> 24) & 0xFF, ...` output idiom of `SM4_Encrypt` and `SM4_Decrypt`). -/
def unpackWordBE (w : ℕ) : List ℕ :=
  [(w >>> 24) &&& 0xFF, (w >>> 16) &&& 0xFF, (w >>> 8) &&& 0xFF, w &&& 0xFF]

/-- The nonlinear operation of `SM4.c`: the S-box applied to the four bytes
of `tmp` and recombined into a 32-bit word (the `buf` computation shared by
the key schedule and the round function). -/
def SM4_tau (sbox : ℕ → ℕ) (tmp : ℕ) : ℕ :=
  (sbox ((tmp >>> 24) &&& 0xFF)) <<< 24 ||| (sbox ((tmp >>> 16) &&& 0xFF)) <<< 16 |||
    (sbox ((tmp >>> 8) &&& 0xFF)) <<< 8 ||| sbox (tmp &&& 0xFF)

/-- One iteration of the key-schedule loop of `SM4_KeySchedule`: the state is
the sliding window `K[i] .. K[i+3]` together with the round keys emitted so
far; `cki` is `SM4_CK[i]`. -/
def SM4_KS_round (sbox : ℕ → ℕ) (st : (ℕ × ℕ × ℕ × ℕ) × List ℕ) (cki : ℕ) :
    (ℕ × ℕ × ℕ × ℕ) × List ℕ :=
  match st with
  | ((k0, k1, k2, k3), acc) =>
    let tmp := k1 ^^^ k2 ^^^ k3 ^^^ cki
    let buf := SM4_tau sbox tmp
    let k4 := k0 ^^^ (buf ^^^ rotl32 buf 13 ^^^ rotl32 buf 23)
    ((k1, k2, k3, k4), acc ++ [k4])

/-- Round-key generation of `SM4_KeySchedule`: `K[i] = FK[i] ^ word_i(MK)`
for `i < 4`, then one `SM4_KS_round` per `CK` entry; the emitted `rk` list
is returned. -/
def SM4_KeySchedule (sbox : ℕ → ℕ) (fk ck MK : List ℕ) : List ℕ :=
  (ck.foldl (SM4_KS_round sbox)
    ((fk.getD 0 0 ^^^ word4 MK 0, fk.getD 1 0 ^^^ word4 MK 1,
      fk.getD 2 0 ^^^ word4 MK 2, fk.getD 3 0 ^^^ word4 MK 3), [])).2

/-- One encryption/decryption round of `SM4.c`:
`X[i+4] = X[i] ^ (buf ^ rot2 ^ rot10 ^ rot18 ^ rot24)` on the sliding
window `X[i] .. X[i+3]`, where `buf` is the S-box substitution of
`X[i+1] ^ X[i+2] ^ X[i+3] ^ rk`. -/
def SM4_round (sbox : ℕ → ℕ) (st : ℕ × ℕ × ℕ × ℕ) (rki : ℕ) : ℕ × ℕ × ℕ × ℕ :=
  match st with
  | (x0, x1, x2, x3) =>
    let buf := SM4_tau sbox (x1 ^^^ x2 ^^^ x3 ^^^ rki)
    (x1, x2, x3,
      x0 ^^^ (buf ^^^ rotl32 buf 2 ^^^ rotl32 buf 10 ^^^ rotl32 buf 18 ^^^ rotl32 buf 24))

/-- Reverse-order output `(X35, X34, X33, X32)` of the final window. -/
def rev4 (s : ℕ × ℕ × ℕ × ℕ) : ℕ × ℕ × ℕ × ℕ := (s.2.2.2, s.2.2.1, s.2.1, s.1)

/-- The `SM4_Encrypt` function of `SM4.c`: key schedule, 32 forward rounds
over the big-endian packed plaintext words, reverse-order byte output. -/
def SM4_Encrypt (sbox : ℕ → ℕ) (fk ck MK B : List ℕ) : List ℕ :=
  let rk := SM4_KeySchedule sbox fk ck MK
  let f := rk.foldl (SM4_round sbox) (word4 B 0, word4 B 1, word4 B 2, word4 B 3)
  unpackWordBE (rev4 f).1 ++ unpackWordBE (rev4 f).2.1 ++
    unpackWordBE (rev4 f).2.2.1 ++ unpackWordBE (rev4 f).2.2.2

/-- The `SM4_Decrypt` function of `SM4.c`: identical to encryption except
that round `i` uses `rk[31 - i]`. -/
def SM4_Decrypt (sbox : ℕ → ℕ) (fk ck MK B : List ℕ) : List ℕ :=
  let rk := SM4_KeySchedule sbox fk ck MK
  let rkrev := (List.range 32).map (fun i => rk.getD (31 - i) 0)
  let f := rkrev.foldl (SM4_round sbox) (word4 B 0, word4 B 1, word4 B 2, word4 B 3)
  unpackWordBE (rev4 f).1 ++ unpackWordBE (rev4 f).2.1 ++
    unpackWordBE (rev4 f).2.2.1 ++ unpackWordBE (rev4 f).2.2.2


/-! ZUC stream cipher (`ZUC.c`).  The S-box tables `ZUC_S0`/`ZUC_S1`, the
`d` constants, `ZUC_LinkToS` and `ZUC_rotl32` live in the missing header
`ZUC.h`; consequently the keystream generator `ZUC_GenKeyStream` enters the
EEA3/EIA3 models as the abstract parameter `genKS`, a pure function of the
key, the IV and the requested word count, exactly as the C function is. -/

/-- The `AddMod` function of `ZUC.c`: addition modulo `2^31 - 1` computed
with an end-around carry on a 32-bit word. -/
def AddMod (a b : ℕ) : ℕ :=
  let c := (a + b) % 2 ^ 32
  if c >>> 31 ≠ 0 then (c &&& 0x7fffffff) + 1 else c

/-- The `PowMod` function of `ZUC.c`: `x * 2^k mod (2^31 - 1)` computed as a
31-bit rotation, with the C `unsigned int` overflow of the left shift made
explicit. -/
def PowMod (x k : ℕ) : ℕ :=
  (((x <<< k) % 2 ^ 32) ||| (x >>> (31 - k))) &&& 0x7fffffff

/-- The feedback value `v` computed identically by both LFSR modes of
`ZUC.c`. -/
def LFSR_v (S : List ℕ) : ℕ :=
  AddMod (AddMod (AddMod (AddMod (AddMod (S.getD 0 0) (PowMod (S.getD 15 0) 15))
    (PowMod (S.getD 13 0) 17)) (PowMod (S.getD 10 0) 21)) (PowMod (S.getD 4 0) 20))
    (PowMod (S.getD 0 0) 8)

/-- `LFSRWithInitMode` of `ZUC.c`: shift the sixteen cells down and write
`AddMod v u` into `s15`, replacing a zero result by `2^31 - 1`. -/
def LFSRWithInitMode (S : List ℕ) (u : ℕ) : List ℕ :=
  let s15 := AddMod (LFSR_v S) u
  S.drop 1 ++ [if s15 = 0 then 0x7fffffff else s15]

/-- `LFSRWithWorkMode` of `ZUC.c`: shift the sixteen cells down and write
`v` into `s15`, replacing a zero result by `2^31 - 1`. -/
def LFSRWithWorkMode (S : List ℕ) : List ℕ :=
  let v := LFSR_v S
  S.drop 1 ++ [if v = 0 then 0x7fffffff else v]

/-- `BitValue` of `ZUC.c`: 1 when bit `i` of the word-stream `M` is set,
counting from the most significant bit of `M[0]`. -/
def BitValue (M : List ℕ) (i : ℕ) : ℕ :=
  if M.getD (i >>> 5) 0 &&& (1 <<< (31 - (i &&& 0x1f))) ≠ 0 then 1 else 0

/-- `GetWord` of `ZUC.c`: the 32-bit word starting at bit position `i` of
the word-stream `k`, with the C `unsigned int` overflow of the left shift
made explicit. -/
def GetWord (k : List ℕ) (i : ℕ) : ℕ :=
  let j := i >>> 5
  let m := i &&& 0x1f
  if m = 0 then k.getD j 0
  else ((k.getD j 0 <<< m) % 2 ^ 32) ||| (k.getD (j + 1) 0 >>> (32 - m))

/-- IV construction of `ZUC_Confidentiality` (128-EEA3); byte stores into
the C `unsigned char` array are reduced modulo 256 where the stored
expression can exceed a byte. -/
def EEA3_iv (COUNT BEARER DIRECTION : ℕ) : List ℕ :=
  let iv0 := (COUNT >>> 24) % 256
  let iv1 := (COUNT >>> 16) &&& 0xff
  let iv2 := (COUNT >>> 8) &&& 0xff
  let iv3 := COUNT &&& 0xff
  let iv4 := (BEARER <<< 3 ||| DIRECTION <<< 2) &&& 0xfc
  [iv0, iv1, iv2, iv3, iv4, 0, 0, 0, iv0, iv1, iv2, iv3, iv4, 0, 0, 0]

/-- `ZUC_Confidentiality` of `ZUC.c` (128-EEA3): generate
`L = (LENGTH + 31) / 32` keystream words, XOR them with the input stream,
and zero the unused low `32 - LENGTH % 32` bits of the last word. -/
def ZUC_Confidentiality (genKS : List ℕ → List ℕ → ℕ → List ℕ)
    (CK : List ℕ) (COUNT BEARER DIRECTION : ℕ) (IBS : List ℕ) (LENGTH : ℕ) : List ℕ :=
  let iv := EEA3_iv COUNT BEARER DIRECTION
  let L := (LENGTH + 31) / 32
  let k := genKS CK iv L
  let OBS := (List.range L).map (fun i => IBS.getD i 0 ^^^ k.getD i 0)
  let t := LENGTH % 32
  if t ≠ 0 then OBS.set (L - 1) ((OBS.getD (L - 1) 0 >>> (32 - t)) <<< (32 - t)) else OBS

/-- IV construction of `ZUC_Integrity` (128-EIA3); byte stores into the C
`unsigned char` array are reduced modulo 256 where the stored expression
can exceed a byte. -/
def EIA3_iv (COUNT BEARER DIRECTION : ℕ) : List ℕ :=
  let iv0 := (COUNT >>> 24) % 256
  let iv1 := (COUNT >>> 16) &&& 0xff
  let iv2 := (COUNT >>> 8) &&& 0xff
  let iv3 := COUNT &&& 0xff
  let iv4 := (BEARER <<< 3) % 256
  [iv0, iv1, iv2, iv3, iv4, 0, 0, 0, (iv0 ^^^ (DIRECTION <<< 7)) % 256, iv1, iv2, iv3, iv4, 0,
    (0 ^^^ (DIRECTION <<< 7)) % 256, 0]

/-- `ZUC_Integrity` of `ZUC.c` (128-EIA3): generate
`L = (LENGTH + 31) / 32 + 2` keystream words, accumulate `T` over the set
bits of the message, fold in `GetWord k LENGTH`, and output
`T ^ GetWord k (32 * (L - 1))`. -/
def ZUC_Integrity (genKS : List ℕ → List ℕ → ℕ → List ℕ)
    (IK : List ℕ) (COUNT BEARER DIRECTION : ℕ) (M : List ℕ) (LENGTH : ℕ) : ℕ :=
  let iv := EIA3_iv COUNT BEARER DIRECTION
  let L := (LENGTH + 31) / 32 + 2
  let k := genKS IK iv L
  let T := (List.range LENGTH).foldl
    (fun T i => if BitValue M i = 1 then T ^^^ GetWord k i else T) 0
  (T ^^^ GetWord k LENGTH) ^^^ GetWord k (32 * (L - 1))


/-! SM2 layer (`SM2_sv.c`, `SM2_ENC.c`, `KDF.h`).  MIRACL (big integers and
the elliptic curve) is an external library.  The curve group generated by
`G` is cyclic of prime order `n` and equals the whole curve group (the
cofactor `h` is 1), so a point is represented faithfully by its discrete
logarithm `j` (the point is `j * G`), taken modulo `n`:  `ecurve_mult` and
`ecurve_add` become `pmul` and `padd` on indices, `point_at_infinity`
becomes `pinf`, and `epoint_get` is given by abstract coordinate maps
`xfun yfun : Nat → Nat` (the x and y affine coordinate of `j * G`).
`epoint_set (x, y)` is the abstract parameter `pset : Nat → Nat → Option Nat`
returning the index of the point with the given affine coordinates, `none`
when no such point is on the curve.  `SM3_256` (not among the sources) is
the abstract parameter `hash`. -/

/-- Big-endian interpretation of a byte buffer (MIRACL `bytes_to_big`). -/
def fromBytesBE (l : List ℕ) : ℕ := l.foldl (fun a b => a * 256 + b) 0

/-- Big-endian serialization into exactly `w` bytes (MIRACL `big_to_bytes`
with `justify = TRUE`). -/
def toBytesBE : ℕ → ℕ → List ℕ
  | 0, _ => []
  | w + 1, x => toBytesBE w (x / 256) ++ [x % 256]

/-- Fuel-driven extended Euclid on `(r0, r1)` carrying the Bezout
coefficients `(s0, s1)` of the first argument; returns the gcd and the
coefficient.  Modelled from the spec: MIRACL `xgcd` (its source is not in
the repository) computes the gcd together with the Bezout coefficient of
its first argument, reduced into `[0, n)` when used as a modular
inverse. -/
def egcdAux : ℕ → ℕ → ℕ → ℤ → ℤ → ℕ × ℤ
  | 0, r0, _, s0, _ => (r0, s0)
  | fuel + 1, r0, r1, s0, s1 =>
    if r1 = 0 then (r0, s0)
    else egcdAux fuel r1 (r0 % r1) s1 (s0 - (r0 / r1 : ℕ) * s1)

/-- The modular inverse as computed by the MIRACL `xgcd(x, n, x, x, x)`
idiom of `SM2_Sign`: the Bezout coefficient of `a` reduced into `[0, n)`. -/
def modInv (a n : ℕ) : ℕ := (((egcdAux n a n 1 0).2 % (n : ℤ)).toNat)

/-- Index of the base point `G` in the discrete-logarithm model. -/
def Gidx : ℕ := 1

/-- `ecurve_mult`: scalar multiplication as index arithmetic modulo `n`. -/
def pmul (a j : ℕ) : ℕ := (a * j) % SM2n

/-- `ecurve_add`: point addition as index addition modulo `n`. -/
def padd (i j : ℕ) : ℕ := (i + j) % SM2n

/-- `point_at_infinity`: the identity is the index 0 modulo `n`. -/
def pinf (j : ℕ) : Prop := j % SM2n = 0

instance (j : ℕ) : Decidable (pinf j) := by unfold pinf; infer_instance

/-- Error codes of `SM2_sv.h`. -/
def ERR_GENERATE_R : ℕ := 6
def ERR_GENERATE_S : ℕ := 7
def ERR_OUTRANGE_R : ℕ := 8
def ERR_OUTRANGE_S : ℕ := 9
def ERR_GENERATE_T : ℕ := 10
def ERR_PUBKEY_INIT : ℕ := 11
def ERR_DATA_MEMCMP : ℕ := 12

/-- Error codes of the encryption path.  Modelled from the spec: the header
`SM2_ENC.h` is not among the sources; the values are the ones documented in
the function headers of `SM2_ENC.c` and in the spec's error-code table. -/
def ENC_ERR_INFINITY_POINT : ℕ := 1
def ENC_ERR_NOT_VALID_POINT : ℕ := 3
def ENC_ERR_ARRAY_NULL : ℕ := 5
def ENC_ERR_C3_MATCH : ℕ := 6

/-- The `SM2_Sign` function of `SM2_sv.c` over the index model:
`e = SM3(ZA ‖ M)` read big-endian, `(x1, y1) = k·G`,
`r = (e + x1) mod n`, error 6 when `r = 0` or `r + k = n`, then
`s = ((1 + dA)⁻¹ · (k + n - (r·dA mod n))) mod n`, error 7 when `s = 0`,
else the 32-byte big-endian pair `(r, s)`.  `bytes_to_big(32, ...)` reads
exactly 32 bytes, hence the `take 32`. -/
def SM2_Sign (hash : List ℕ → List ℕ) (xfun : ℕ → ℕ)
    (message ZA rand d : List ℕ) : Except ℕ (List ℕ × List ℕ) :=
  let dA := fromBytesBE (d.take 32)
  let e := fromBytesBE ((hash (ZA.take 32 ++ message)).take 32)
  let k := fromBytesBE (rand.take 32)
  let x1 := xfun (pmul k Gidx)
  let r := (e + x1) % SM2n
  if r = 0 ∨ r + k = SM2n then Except.error ERR_GENERATE_R
  else
    let z1 := modInv (dA + 1) SM2n
    let z2 := (r * dA) % SM2n
    let s := (z1 * (k + SM2n - z2)) % SM2n
    if s = 0 then Except.error ERR_GENERATE_S
    else Except.ok (toBytesBE 32 r, toBytesBE 32 s)

/-- The `SM2_Verify` function of `SM2_sv.c` over the index model, returning
the C `int` code (0 is success): initialize the public key from its
coordinate bytes (`ERR_PUBKEY_INIT` on failure), range-check `r` and `s`,
recompute `e`, `t = (r + s) mod n` (`ERR_GENERATE_T` when 0),
`(x1, y1) = s·G + t·PA`, and accept exactly when `(e + x1) mod n = r`. -/
def SM2_Verify (hash : List ℕ → List ℕ) (xfun : ℕ → ℕ)
    (pset : ℕ → ℕ → Option ℕ)
    (message ZA Px Py R S : List ℕ) : ℕ :=
  let PAx := fromBytesBE (Px.take 32)
  let PAy := fromBytesBE (Py.take 32)
  let r := fromBytesBE (R.take 32)
  let s := fromBytesBE (S.take 32)
  match pset PAx PAy with
  | none => ERR_PUBKEY_INIT
  | some PA =>
    if r < 1 ∨ SM2n - 1 < r then ERR_OUTRANGE_R
    else if s < 1 ∨ SM2n - 1 < s then ERR_OUTRANGE_S
    else
      let e := fromBytesBE ((hash (ZA.take 32 ++ message)).take 32)
      let t := (r + s) % SM2n
      if t = 0 then ERR_GENERATE_T
      else
        let x1 := xfun (padd (pmul s Gidx) (pmul t PA))
        let RR := (e + x1) % SM2n
        if RR = r then 0 else ERR_DATA_MEMCMP

/-- `Test_Null` of `SM2_ENC.c`: 1 exactly when the array is all zero. -/
def Test_Null (l : List ℕ) : Bool := l.all (fun b => b == 0)

/-- `SM3_KDF` of `KDF.h` over the abstract hash: `t = ⌈klen·8/256⌉` blocks
`SM3(Z ‖ ct)` for the 32-bit big-endian counter `ct = 1, 2, ...`; the first
`t - 1` blocks contribute 32 bytes each and the last contributes the
remaining `klen mod 32` (or 32) bytes, i.e. the concatenation truncated to
`klen` bytes. -/
def SM3_KDF (hash : List ℕ → List ℕ) (Z : List ℕ) (klen : ℕ) : List ℕ :=
  let bitklen := klen * 8
  let t := if bitklen % 256 ≠ 0 then bitklen / 256 + 1 else bitklen / 256
  (((List.range t).map (fun i => (hash (Z ++ toBytesBE 4 (i + 1))).take 32)).flatten).take klen

/-- The `SM2_Encrypt` function of `SM2_ENC.c` over the index model:
`C1 = k·G` serialized as the bare 64-byte `X ‖ Y`, reject when
`[h]pubKey` is the identity, `(x2, y2) = k·pubKey`,
`t = KDF(x2 ‖ y2, klen)` (reject when all zero), `C2 = M ⊕ t`,
`C3 = SM3(x2 ‖ M ‖ y2)`, output `C1 ‖ C3 ‖ C2` (the cofactor `h` is 1). -/
def SM2_Encrypt (hash : List ℕ → List ℕ) (xfun yfun : ℕ → ℕ)
    (randK : List ℕ) (pubKey : ℕ) (M : List ℕ) (klen : ℕ) : Except ℕ (List ℕ) :=
  let k := fromBytesBE (randK.take 32)
  let C1 := pmul k Gidx
  let C1bytes := toBytesBE 32 (xfun C1) ++ toBytesBE 32 (yfun C1)
  if pinf (pmul 1 pubKey) then Except.error ENC_ERR_INFINITY_POINT
  else
    let kP := pmul k pubKey
    let x2y2 := toBytesBE 32 (xfun kP) ++ toBytesBE 32 (yfun kP)
    let t := SM3_KDF hash x2y2 klen
    if Test_Null t then Except.error ENC_ERR_ARRAY_NULL
    else
      let C2 := List.zipWith (fun a b => a ^^^ b) (M.take klen) t
      let C3 := hash (toBytesBE 32 (xfun kP) ++ M.take klen ++ toBytesBE 32 (yfun kP))
      Except.ok (C1bytes ++ C3 ++ C2)

/-- The `SM2_Decrypt` function of `SM2_ENC.c` over the index model.  The
first component is the returned C `int` code (0 is success); the second is
the content the function has written into the caller's output buffer `M`
at the point of return (empty when it returns before writing).  `pset`
models `epoint_set` followed by `Test_Point`: the index of the on-curve
point with the parsed coordinates, `none` (error 3) otherwise.  The KDF
stream is written into `M` first, then XORed in place with `C2`, and only
then is the `C3` tag compared. -/
def SM2_Decrypt (hash : List ℕ → List ℕ) (xfun yfun : ℕ → ℕ)
    (pset : ℕ → ℕ → Option ℕ) (dB : ℕ) (C : List ℕ) (Clen : ℕ) : ℕ × List ℕ :=
  let klen := Clen - 96
  let C1x := fromBytesBE (C.take 32)
  let C1y := fromBytesBE ((C.drop 32).take 32)
  match pset C1x C1y with
  | none => (ENC_ERR_NOT_VALID_POINT, [])
  | some C1 =>
    if pinf (pmul 1 C1) then (ENC_ERR_INFINITY_POINT, [])
    else
      let dBC1 := pmul dB C1
      let x2y2 := toBytesBE 32 (xfun dBC1) ++ toBytesBE 32 (yfun dBC1)
      let t := SM3_KDF hash x2y2 klen
      if Test_Null t then (ENC_ERR_ARRAY_NULL, t)
      else
        let Mout := List.zipWith (fun a b => a ^^^ b) t ((C.drop 96).take klen)
        let hv := hash (toBytesBE 32 (xfun dBC1) ++ Mout ++ toBytesBE 32 (yfun dBC1))
        if hv.take 32 = (C.drop 64).take 32 then (0, Mout)
        else (ENC_ERR_C3_MATCH, Mout)

theorem powModAux_eq (fuel : ℕ) :
    ∀ a e m : ℕ, e < 2 ^ fuel → powModAux fuel a e m = a ^ e % m := by
  induction fuel with
  | zero =>
    intro a e m he
    have : e = 0 := by simpa using he
    subst this
    simp [powModAux]
  | succ f ih =>
    intro a e m he
    by_cases h0 : e = 0
    · subst h0; simp [powModAux]
    · have hdiv : e / 2 < 2 ^ f := by
        rw [Nat.div_lt_iff_lt_mul (by norm_num)]
        calc e < 2 ^ (f + 1) := he
          _ = 2 ^ f * 2 := by rw [pow_succ]
      have hrec : powModAux f (a * a % m) (e / 2) m = (a * a) ^ (e / 2) % m := by
        rw [ih _ _ _ hdiv, Nat.pow_mod, Nat.mod_mod_of_dvd, ← Nat.pow_mod]
        exact dvd_rfl
      have hsplit : 2 * (e / 2) + e % 2 = e := by omega
      rcases Nat.mod_two_eq_zero_or_one e with hpar | hpar
      · have hexp : (a * a) ^ (e / 2) = a ^ e := by
          rw [← pow_two, ← pow_mul]
          congr 1
          omega
        simp only [powModAux, h0, if_false, hpar]
        rw [hrec, hexp]
        norm_num
      · have hexp : a * (a * a) ^ (e / 2) = a ^ e := by
          rw [← pow_two, ← pow_mul, ← pow_succ']
          congr 1
          omega
        simp only [powModAux, h0, if_false, hpar, if_true]
        rw [hrec, Nat.mul_mod, Nat.mod_mod_of_dvd _ dvd_rfl, ← Nat.mul_mod, hexp]

theorem powMod_eq (a e m : ℕ) (he : e < 2 ^ 300) : powMod a e m = a ^ e % m :=
  powModAux_eq 300 a e m he

/-- A prime dividing the product of a list of primes is one of them. -/
theorem prime_mem_of_dvd_prod {q : ℕ} (hq : Nat.Prime q) :
    ∀ {l : List ℕ}, (∀ r ∈ l, Nat.Prime r) → q ∣ l.prod → q ∈ l := by
  intro l
  induction l with
  | nil =>
    intro _ hdvd
    simp only [List.prod_nil] at hdvd
    exact absurd (Nat.eq_one_of_dvd_one hdvd) hq.ne_one
  | cons a t ih =>
    intro hall hdvd
    simp only [List.prod_cons] at hdvd
    rcases (Nat.Prime.dvd_mul hq).mp hdvd with h | h
    · have : q = a := (Nat.prime_dvd_prime_iff_eq hq (hall a (by simp))).mp h
      simp [this]
    · exact List.mem_cons_of_mem _ (ih (fun r hr => hall r (List.mem_cons_of_mem _ hr)) h)

/-- Pratt certificate checker: a witness of order `p - 1`, verified by
kernel computation through `powMod`, certifies that `p` is prime. -/
theorem prime_of_pratt (p a : ℕ) (qs : List ℕ) (hp : 1 < p)
    (hprod : p - 1 = qs.prod)
    (hq : ∀ q ∈ qs, Nat.Prime q)
    (hlt : p - 1 < 2 ^ 300)
    (ha : powMod a (p - 1) p = 1)
    (hd : ∀ q ∈ qs, powMod a ((p - 1) / q) p ≠ 1) : Nat.Prime p := by
  haveI : NeZero p := ⟨by omega⟩
  haveI : Fact (1 < p) := ⟨hp⟩
  apply lucas_primality p (a : ZMod p)
  · have h1 : (a : ZMod p) ^ (p - 1) = ((a ^ (p - 1) % p : ℕ) : ZMod p) := by
      rw [ZMod.natCast_mod, Nat.cast_pow]
    rw [h1, ← powMod_eq a (p - 1) p hlt, ha, Nat.cast_one]
  · intro q hq' hdvd
    have hmem : q ∈ qs := prime_mem_of_dvd_prod hq' hq (hprod ▸ hdvd)
    intro hcontra
    apply hd q hmem
    have hle : (p - 1) / q < 2 ^ 300 := lt_of_le_of_lt (Nat.div_le_self _ _) hlt
    rw [powMod_eq a _ p hle]
    have h1 : (a : ZMod p) ^ ((p - 1) / q) = ((a ^ ((p - 1) / q) % p : ℕ) : ZMod p) := by
      rw [ZMod.natCast_mod, Nat.cast_pow]
    rw [h1] at hcontra
    have hval := congrArg ZMod.val hcontra
    rw [ZMod.val_cast_of_lt (Nat.mod_lt _ (by omega)), ZMod.val_one] at hval
    exact hval

theorem prime_107615843 : Nat.Prime 107615843 := by
  apply prime_of_pratt _ 2 [2, 43, 103, 12149] (by norm_num) (by decide) ?_ (by norm_num) (by decide) (by decide)
  intro q hq
  fin_cases hq
  all_goals norm_num

theorem prime_117774739 : Nat.Prime 117774739 := by
  apply prime_of_pratt _ 2 [2, 3, 3, 59, 110899] (by norm_num) (by decide) ?_ (by norm_num) (by decide) (by decide)
  intro q hq
  fin_cases hq
  all_goals norm_num

theorem prime_1413296869 : Nat.Prime 1413296869 := by
  apply prime_of_pratt _ 6 [2, 2, 3, 117774739] (by norm_num) (by decide) ?_ (by norm_num) (by decide) (by decide)
  intro q hq
  fin_cases hq
  all_goals first | exact prime_117774739 | norm_num

theorem prime_2566129871 : Nat.Prime 2566129871 := by
  apply prime_of_pratt _ 7 [2, 5, 3049, 84163] (by norm_num) (by decide) ?_ (by norm_num) (by decide) (by decide)
  intro q hq
  fin_cases hq
  all_goals norm_num

theorem prime_2368433183657 : Nat.Prime 2368433183657 := by
  apply prime_of_pratt _ 3 [2, 2, 2, 41, 719, 10042883] (by norm_num) (by decide) ?_ (by norm_num) (by decide) (by decide)
  intro q hq
  fin_cases hq
  all_goals norm_num

theorem prime_5636460199499 : Nat.Prime 5636460199499 := by
  apply prime_of_pratt _ 2 [2, 31, 79, 127, 9061163] (by norm_num) (by decide) ?_ (by norm_num) (by decide) (by decide)
  intro q hq
  fin_cases hq
  all_goals norm_num

theorem prime_101456283590983 : Nat.Prime 101456283590983 := by
  apply prime_of_pratt _ 3 [2, 3, 3, 5636460199499] (by norm_num) (by decide) ?_ (by norm_num) (by decide) (by decide)
  intro q hq
  fin_cases hq
  all_goals first | exact prime_5636460199499 | norm_num

theorem prime_3258964060712033 : Nat.Prime 3258964060712033 := by
  apply prime_of_pratt _ 3 [2, 2, 2, 2, 2, 43, 2368433183657] (by norm_num) (by decide) ?_ (by norm_num) (by decide) (by decide)
  intro q hq
  fin_cases hq
  all_goals first | exact prime_2368433183657 | norm_num

theorem prime_18120927127286907576013935251791662753637 : Nat.Prime 18120927127286907576013935251791662753637 := by
  apply prime_of_pratt _ 6 [2, 2, 3, 3, 17965699, 107615843, 2566129871, 101456283590983] (by norm_num) (by decide) ?_ (by norm_num) (by decide) (by decide)
  intro q hq
  fin_cases hq
  all_goals first | exact prime_101456283590983 | exact prime_107615843 | exact prime_2566129871 | norm_num

theorem prime_125197554539772723432468576818475380947471091418362477724521 : Nat.Prime 125197554539772723432468576818475380947471091418362477724521 := by
  apply prime_of_pratt _ 3 [2, 2, 2, 5, 53, 3258964060712033, 18120927127286907576013935251791662753637] (by norm_num) (by decide) ?_ (by norm_num) (by decide) (by decide)
  intro q hq
  fin_cases hq
  all_goals first | exact prime_18120927127286907576013935251791662753637 | exact prime_3258964060712033 | norm_num

theorem SM2n_prime : Nat.Prime SM2n := by
  rw [show SM2n = 115792089210356248756420345214020892766061623724957744567843809356293439045923 from rfl]
  apply prime_of_pratt _ 3 [2, 3, 7759, 14057, 1413296869, 125197554539772723432468576818475380947471091418362477724521] (by norm_num) (by decide) ?_ (by norm_num) (by decide) (by decide)
  intro q hq
  fin_cases hq
  all_goals first | exact prime_125197554539772723432468576818475380947471091418362477724521 | exact prime_1413296869 | norm_num


theorem testBit_false_of_lt_256 {x i : ℕ} (hx : x < 256) (hi : 8 ≤ i) :
    x.testBit i = false := by
  apply Nat.testBit_lt_two_pow
  calc x < 256 := hx
    _ = 2 ^ 8 := by norm_num
    _ ≤ 2 ^ i := Nat.pow_le_pow_right (by norm_num) hi

theorem pack_unpack (w : ℕ) (hw : w < 2 ^ 32) :
    ((w >>> 24) &&& 0xFF) <<< 24 ||| ((w >>> 16) &&& 0xFF) <<< 16 |||
      ((w >>> 8) &&& 0xFF) <<< 8 ||| (w &&& 0xFF) = w := by
  apply Nat.eq_of_testBit_eq
  intro i
  rcases Nat.lt_or_ge i 32 with hi | hi
  · simp only [Nat.testBit_or, Nat.testBit_shiftLeft, Nat.testBit_and, Nat.testBit_shiftRight,
      show (0xFF : ℕ) = 2 ^ 8 - 1 from rfl, Nat.testBit_two_pow_sub_one]
    rcases Nat.lt_or_ge i 8 with h8 | h8
    · have h1 : ¬ (8 : ℕ) ≤ i := by omega
      have h2 : ¬ (16 : ℕ) ≤ i := by omega
      have h3 : ¬ (24 : ℕ) ≤ i := by omega
      simp [h1, h2, h3, h8]
    · rcases Nat.lt_or_ge i 16 with h16 | h16
      · have h2 : ¬ (16 : ℕ) ≤ i := by omega
        have h3 : ¬ (24 : ℕ) ≤ i := by omega
        have h4 : i - 8 < 8 := by omega
        have h5 : 8 + (i - 8) = i := by omega
        simp [h8, h2, h3, h4, h5, show ¬ i < 8 by omega]
      · rcases Nat.lt_or_ge i 24 with h24 | h24
        · have h3 : ¬ (24 : ℕ) ≤ i := by omega
          have h4 : i - 16 < 8 := by omega
          have h5 : 16 + (i - 16) = i := by omega
          simp [h16, h3, h4, h5, show ¬ i < 8 by omega]
          simp [show ¬ i - 8 < 8 by omega]
        · have h4 : i - 24 < 8 := by omega
          have h5 : 24 + (i - 24) = i := by omega
          simp [h24, h4, h5, show ¬ i < 8 by omega, show ¬ i - 8 < 8 by omega,
            show ¬ i - 16 < 8 by omega]
  · have hz : w.testBit i = false :=
      Nat.testBit_lt_two_pow (lt_of_lt_of_le hw (Nat.pow_le_pow_right (by norm_num) hi))
    simp only [Nat.testBit_or, Nat.testBit_shiftLeft, Nat.testBit_and, Nat.testBit_shiftRight, hz,
      show (0xFF : ℕ) = 2 ^ 8 - 1 from rfl, Nat.testBit_two_pow_sub_one]
    simp [show ¬ i < 8 by omega, show ¬ i - 8 < 8 by omega, show ¬ i - 16 < 8 by omega,
      show ¬ i - 24 < 8 by omega]

theorem unpack_field0 (a b c d : ℕ) (hb : b < 256) (hc : c < 256)
    (hd : d < 256) : ((a <<< 24 ||| b <<< 16 ||| c <<< 8 ||| d) >>> 24) &&& 0xFF = a % 256 := by
  apply Nat.eq_of_testBit_eq
  intro i
  simp only [Nat.testBit_and, Nat.testBit_shiftRight, Nat.testBit_or, Nat.testBit_shiftLeft,
    show (0xFF : ℕ) = 2 ^ 8 - 1 from rfl, Nat.testBit_two_pow_sub_one,
    show (256 : ℕ) = 2 ^ 8 from rfl, Nat.testBit_mod_two_pow]
  rcases Nat.lt_or_ge i 8 with h8 | h8
  · simp [show (24:ℕ) ≤ 24 + i by omega, show (16:ℕ) ≤ 24 + i by omega,
      show (8:ℕ) ≤ 24 + i by omega, show 24 + i - 24 = i by omega, h8,
      testBit_false_of_lt_256 hb (show 8 ≤ 24 + i - 16 by omega),
      testBit_false_of_lt_256 hc (show 8 ≤ 24 + i - 8 by omega),
      testBit_false_of_lt_256 hd (show 8 ≤ 24 + i by omega)]
  · simp [show ¬ i < 8 by omega]

theorem unpack_field1 (a b c d : ℕ) (hb : b < 256) (hc : c < 256)
    (hd : d < 256) : ((a <<< 24 ||| b <<< 16 ||| c <<< 8 ||| d) >>> 16) &&& 0xFF = b := by
  apply Nat.eq_of_testBit_eq
  intro i
  simp only [Nat.testBit_and, Nat.testBit_shiftRight, Nat.testBit_or, Nat.testBit_shiftLeft,
    show (0xFF : ℕ) = 2 ^ 8 - 1 from rfl, Nat.testBit_two_pow_sub_one]
  rcases Nat.lt_or_ge i 8 with h8 | h8
  · simp [show ¬ (24:ℕ) ≤ 16 + i by omega, show (16:ℕ) ≤ 16 + i by omega,
      show (8:ℕ) ≤ 16 + i by omega, show 16 + i - 16 = i by omega, h8,
      testBit_false_of_lt_256 hc (show 8 ≤ 16 + i - 8 by omega),
      testBit_false_of_lt_256 hd (show 8 ≤ 16 + i by omega)]
  · simp [testBit_false_of_lt_256 hb h8, show ¬ i < 8 by omega]

theorem unpack_field2 (a b c d : ℕ) (hc : c < 256)
    (hd : d < 256) : ((a <<< 24 ||| b <<< 16 ||| c <<< 8 ||| d) >>> 8) &&& 0xFF = c := by
  apply Nat.eq_of_testBit_eq
  intro i
  simp only [Nat.testBit_and, Nat.testBit_shiftRight, Nat.testBit_or, Nat.testBit_shiftLeft,
    show (0xFF : ℕ) = 2 ^ 8 - 1 from rfl, Nat.testBit_two_pow_sub_one]
  rcases Nat.lt_or_ge i 8 with h8 | h8
  · simp [show ¬ (24:ℕ) ≤ 8 + i by omega, show ¬ (16:ℕ) ≤ 8 + i by omega,
      show (8:ℕ) ≤ 8 + i by omega, show 8 + i - 8 = i by omega, h8,
      testBit_false_of_lt_256 hd (show 8 ≤ 8 + i by omega)]
  · simp [testBit_false_of_lt_256 hc h8, show ¬ i < 8 by omega]

theorem unpack_field3 (a b c d : ℕ)
    (hd : d < 256) : (a <<< 24 ||| b <<< 16 ||| c <<< 8 ||| d) &&& 0xFF = d := by
  apply Nat.eq_of_testBit_eq
  intro i
  simp only [Nat.testBit_and, Nat.testBit_or, Nat.testBit_shiftLeft,
    show (0xFF : ℕ) = 2 ^ 8 - 1 from rfl, Nat.testBit_two_pow_sub_one]
  rcases Nat.lt_or_ge i 8 with h8 | h8
  · simp [show ¬ (24:ℕ) ≤ i by omega, show ¬ (16:ℕ) ≤ i by omega,
      show ¬ (8:ℕ) ≤ i by omega, h8]
  · simp [testBit_false_of_lt_256 hd h8, show ¬ i < 8 by omega]

theorem unpack_pack_list (a b c d : ℕ) (ha : a < 256) (hb : b < 256) (hc : c < 256)
    (hd : d < 256) :
    unpackWordBE (a <<< 24 ||| b <<< 16 ||| c <<< 8 ||| d) = [a, b, c, d] := by
  simp only [unpackWordBE, unpack_field0 a b c d hb hc hd, unpack_field1 a b c d hb hc hd,
    unpack_field2 a b c d hc hd, unpack_field3 a b c d hd, Nat.mod_eq_of_lt ha]

theorem exists_sixteen {α : Type _} (B : List α) (h : B.length = 16) :
    ∃ b0 b1 b2 b3 b4 b5 b6 b7 b8 b9 b10 b11 b12 b13 b14 b15,
      B = [b0, b1, b2, b3, b4, b5, b6, b7, b8, b9, b10, b11, b12, b13, b14, b15] := by
  rcases B with _ | ⟨b0, B⟩; · simp at h
  rcases B with _ | ⟨b1, B⟩; · simp at h
  rcases B with _ | ⟨b2, B⟩; · simp at h
  rcases B with _ | ⟨b3, B⟩; · simp at h
  rcases B with _ | ⟨b4, B⟩; · simp at h
  rcases B with _ | ⟨b5, B⟩; · simp at h
  rcases B with _ | ⟨b6, B⟩; · simp at h
  rcases B with _ | ⟨b7, B⟩; · simp at h
  rcases B with _ | ⟨b8, B⟩; · simp at h
  rcases B with _ | ⟨b9, B⟩; · simp at h
  rcases B with _ | ⟨b10, B⟩; · simp at h
  rcases B with _ | ⟨b11, B⟩; · simp at h
  rcases B with _ | ⟨b12, B⟩; · simp at h
  rcases B with _ | ⟨b13, B⟩; · simp at h
  rcases B with _ | ⟨b14, B⟩; · simp at h
  rcases B with _ | ⟨b15, B⟩; · simp at h
  rcases B with _ | ⟨b16, B⟩
  · exact ⟨b0, b1, b2, b3, b4, b5, b6, b7, b8, b9, b10, b11, b12, b13, b14, b15, rfl⟩
  · simp at h

theorem word4_list0 (b0 b1 b2 b3 b4 b5 b6 b7 b8 b9 b10 b11 b12 b13 b14 b15 : ℕ) :
    word4 [b0, b1, b2, b3, b4, b5, b6, b7, b8, b9, b10, b11, b12, b13, b14, b15] 0 =
      b0 <<< 24 ||| b1 <<< 16 ||| b2 <<< 8 ||| b3 := rfl

theorem word4_list1 (b0 b1 b2 b3 b4 b5 b6 b7 b8 b9 b10 b11 b12 b13 b14 b15 : ℕ) :
    word4 [b0, b1, b2, b3, b4, b5, b6, b7, b8, b9, b10, b11, b12, b13, b14, b15] 1 =
      b4 <<< 24 ||| b5 <<< 16 ||| b6 <<< 8 ||| b7 := rfl

theorem word4_list2 (b0 b1 b2 b3 b4 b5 b6 b7 b8 b9 b10 b11 b12 b13 b14 b15 : ℕ) :
    word4 [b0, b1, b2, b3, b4, b5, b6, b7, b8, b9, b10, b11, b12, b13, b14, b15] 2 =
      b8 <<< 24 ||| b9 <<< 16 ||| b10 <<< 8 ||| b11 := rfl

theorem word4_list3 (b0 b1 b2 b3 b4 b5 b6 b7 b8 b9 b10 b11 b12 b13 b14 b15 : ℕ) :
    word4 [b0, b1, b2, b3, b4, b5, b6, b7, b8, b9, b10, b11, b12, b13, b14, b15] 3 =
      b12 <<< 24 ||| b13 <<< 16 ||| b14 <<< 8 ||| b15 := rfl

theorem rotl32_lt (x n : ℕ) (hx : x < 2 ^ 32) : rotl32 x n < 2 ^ 32 := by
  apply Nat.or_lt_two_pow
  · exact Nat.mod_lt _ (by norm_num)
  · calc x >>> (32 - n) = x / 2 ^ (32 - n) := Nat.shiftRight_eq_div_pow _ _
      _ ≤ x := Nat.div_le_self _ _
      _ < 2 ^ 32 := hx

theorem shiftLeft_byte_lt {x : ℕ} (hx : x < 256) (k : ℕ) (hk : k ≤ 24) :
    x <<< k < 2 ^ 32 := by
  rw [Nat.shiftLeft_eq]
  calc x * 2 ^ k < 256 * 2 ^ k := by
        exact Nat.mul_lt_mul_of_lt_of_le hx (le_refl _) (Nat.pos_pow_of_pos _ (by norm_num))
    _ ≤ 256 * 2 ^ 24 := by
        exact Nat.mul_le_mul_left _ (Nat.pow_le_pow_right (by norm_num) hk)
    _ = 2 ^ 32 := by norm_num

theorem SM4_tau_lt (sbox : ℕ → ℕ) (hs : ∀ i, sbox i < 256) (tmp : ℕ) :
    SM4_tau sbox tmp < 2 ^ 32 := by
  unfold SM4_tau
  apply Nat.or_lt_two_pow
  apply Nat.or_lt_two_pow
  apply Nat.or_lt_two_pow
  · exact shiftLeft_byte_lt (hs _) 24 (by norm_num)
  · exact shiftLeft_byte_lt (hs _) 16 (by norm_num)
  · exact shiftLeft_byte_lt (hs _) 8 (by norm_num)
  · calc sbox (tmp &&& 0xFF) < 256 := hs _
      _ < 2 ^ 32 := by norm_num

theorem SM4_round_lt (sbox : ℕ → ℕ) (hs : ∀ i, sbox i < 256)
    (s : ℕ × ℕ × ℕ × ℕ) (k : ℕ)
    (h : s.1 < 2 ^ 32 ∧ s.2.1 < 2 ^ 32 ∧ s.2.2.1 < 2 ^ 32 ∧ s.2.2.2 < 2 ^ 32) :
    (SM4_round sbox s k).1 < 2 ^ 32 ∧ (SM4_round sbox s k).2.1 < 2 ^ 32 ∧
      (SM4_round sbox s k).2.2.1 < 2 ^ 32 ∧ (SM4_round sbox s k).2.2.2 < 2 ^ 32 := by
  obtain ⟨a, b, c, d⟩ := s
  obtain ⟨h1, h2, h3, h4⟩ := h
  have htau := SM4_tau_lt sbox hs (b ^^^ c ^^^ d ^^^ k)
  refine ⟨h2, h3, h4, ?_⟩
  apply Nat.xor_lt_two_pow h1
  apply Nat.xor_lt_two_pow
  apply Nat.xor_lt_two_pow
  apply Nat.xor_lt_two_pow
  apply Nat.xor_lt_two_pow htau
  all_goals exact rotl32_lt _ _ htau

theorem foldl_round_lt (sbox : ℕ → ℕ) (hs : ∀ i, sbox i < 256) :
    ∀ (l : List ℕ) (s : ℕ × ℕ × ℕ × ℕ),
      s.1 < 2 ^ 32 ∧ s.2.1 < 2 ^ 32 ∧ s.2.2.1 < 2 ^ 32 ∧ s.2.2.2 < 2 ^ 32 →
      (l.foldl (SM4_round sbox) s).1 < 2 ^ 32 ∧ (l.foldl (SM4_round sbox) s).2.1 < 2 ^ 32 ∧
        (l.foldl (SM4_round sbox) s).2.2.1 < 2 ^ 32 ∧
        (l.foldl (SM4_round sbox) s).2.2.2 < 2 ^ 32 := by
  intro l
  induction l with
  | nil => intro s h; exact h
  | cons k t ih =>
    intro s h
    simp only [List.foldl_cons]
    exact ih _ (SM4_round_lt sbox hs s k h)

theorem xor_arg_comm (x y z w : ℕ) : x ^^^ y ^^^ z ^^^ w = z ^^^ y ^^^ x ^^^ w := by
  apply Nat.eq_of_testBit_eq
  intro i
  simp only [Nat.testBit_xor]
  generalize x.testBit i = p
  generalize y.testBit i = q
  generalize z.testBit i = r
  generalize w.testBit i = t
  cases p <;> cases q <;> cases r <;> cases t <;> rfl

theorem round_round (sbox : ℕ → ℕ) (s : ℕ × ℕ × ℕ × ℕ) (k : ℕ) :
    SM4_round sbox (rev4 (SM4_round sbox s k)) k = rev4 s := by
  obtain ⟨a, b, c, d⟩ := s
  simp only [SM4_round, rev4]
  rw [xor_arg_comm d c b k]
  rw [Nat.xor_assoc, Nat.xor_self, Nat.xor_zero]

theorem foldl_round_reverse (sbox : ℕ → ℕ) :
    ∀ (l : List ℕ) (s : ℕ × ℕ × ℕ × ℕ),
      l.reverse.foldl (SM4_round sbox) (rev4 (l.foldl (SM4_round sbox) s)) = rev4 s := by
  intro l
  induction l with
  | nil => intro s; rfl
  | cons k t ih =>
    intro s
    simp only [List.reverse_cons, List.foldl_append, List.foldl_cons, List.foldl_nil]
    rw [ih (SM4_round sbox s k)]
    exact round_round sbox s k

theorem KS_foldl_len (sbox : ℕ → ℕ) :
    ∀ (l : List ℕ) (q : ℕ × ℕ × ℕ × ℕ) (acc : List ℕ),
      ((l.foldl (SM4_KS_round sbox) (q, acc)).2).length = acc.length + l.length := by
  intro l
  induction l with
  | nil => intro q acc; simp
  | cons k t ih =>
    intro q acc
    obtain ⟨q0, q1, q2, q3⟩ := q
    simp only [List.foldl_cons, SM4_KS_round]
    rw [ih]
    simp
    omega

theorem SM4_KeySchedule_len (sbox : ℕ → ℕ) (fk ck MK : List ℕ) :
    (SM4_KeySchedule sbox fk ck MK).length = ck.length := by
  unfold SM4_KeySchedule
  rw [KS_foldl_len]
  simp

theorem range_map_getD_reverse (rk : List ℕ) (h : rk.length = 32) :
    (List.range 32).map (fun i => rk.getD (31 - i) 0) = rk.reverse := by
  apply List.ext_getElem
  · simp [h]
  · intro i h1 h2
    simp only [List.getElem_map, List.getElem_range, List.getElem_reverse]
    have hlt : 31 - i < rk.length := by simp at h1; omega
    rw [List.getD_eq_getElem rk 0 hlt]
    congr 1
    simp at h1
    omega

theorem pack_lt {a b c d : ℕ} (ha : a < 256) (hb : b < 256) (hc : c < 256) (hd : d < 256) :
    a <<< 24 ||| b <<< 16 ||| c <<< 8 ||| d < 2 ^ 32 := by
  apply Nat.or_lt_two_pow
  apply Nat.or_lt_two_pow
  apply Nat.or_lt_two_pow
  · exact shiftLeft_byte_lt ha 24 (by norm_num)
  · exact shiftLeft_byte_lt hb 16 (by norm_num)
  · exact shiftLeft_byte_lt hc 8 (by norm_num)
  · calc d < 256 := hd
      _ < 2 ^ 32 := by norm_num

/-- C3: for every 128-bit key and block, SM4 decryption inverts SM4
encryption, and the decryption round keys are exactly the encryption round
keys in reverse order.  The S-box and the `FK`/`CK` tables are parameters
(they are defined in the missing header `SM4.h`); the result holds for any
byte-valued S-box and any 32-entry `CK` table. -/
theorem SM4_decrypt_encrypt (sbox : ℕ → ℕ) (fk ck MK B : List ℕ)
    (hs : ∀ i, sbox i < 256) (hck : ck.length = 32)
    (hlen : B.length = 16) (hB : ∀ b ∈ B, b < 256) :
    SM4_Decrypt sbox fk ck MK (SM4_Encrypt sbox fk ck MK B) = B ∧
    (List.range 32).map (fun i => (SM4_KeySchedule sbox fk ck MK).getD (31 - i) 0) =
      (SM4_KeySchedule sbox fk ck MK).reverse := by
  have hrklen : (SM4_KeySchedule sbox fk ck MK).length = 32 := by
    rw [SM4_KeySchedule_len]; exact hck
  have hrev := range_map_getD_reverse _ hrklen
  refine ⟨?_, hrev⟩
  obtain ⟨b0, b1, b2, b3, b4, b5, b6, b7, b8, b9, b10, b11, b12, b13, b14, b15, rfl⟩ :=
    exists_sixteen B hlen
  have v0 : b0 < 256 := hB _ (by simp)
  have v1 : b1 < 256 := hB _ (by simp)
  have v2 : b2 < 256 := hB _ (by simp)
  have v3 : b3 < 256 := hB _ (by simp)
  have v4 : b4 < 256 := hB _ (by simp)
  have v5 : b5 < 256 := hB _ (by simp)
  have v6 : b6 < 256 := hB _ (by simp)
  have v7 : b7 < 256 := hB _ (by simp)
  have v8 : b8 < 256 := hB _ (by simp)
  have v9 : b9 < 256 := hB _ (by simp)
  have v10 : b10 < 256 := hB _ (by simp)
  have v11 : b11 < 256 := hB _ (by simp)
  have v12 : b12 < 256 := hB _ (by simp)
  have v13 : b13 < 256 := hB _ (by simp)
  have v14 : b14 < 256 := hB _ (by simp)
  have v15 : b15 < 256 := hB _ (by simp)
  simp only [SM4_Decrypt, SM4_Encrypt, hrev, word4_list0, word4_list1, word4_list2, word4_list3]
  have hfb := foldl_round_lt sbox hs (SM4_KeySchedule sbox fk ck MK)
    (b0 <<< 24 ||| b1 <<< 16 ||| b2 <<< 8 ||| b3,
     b4 <<< 24 ||| b5 <<< 16 ||| b6 <<< 8 ||| b7,
     b8 <<< 24 ||| b9 <<< 16 ||| b10 <<< 8 ||| b11,
     b12 <<< 24 ||| b13 <<< 16 ||| b14 <<< 8 ||| b15)
    ⟨pack_lt v0 v1 v2 v3, pack_lt v4 v5 v6 v7, pack_lt v8 v9 v10 v11, pack_lt v12 v13 v14 v15⟩
  have hinv := foldl_round_reverse sbox (SM4_KeySchedule sbox fk ck MK)
    (b0 <<< 24 ||| b1 <<< 16 ||| b2 <<< 8 ||| b3,
     b4 <<< 24 ||| b5 <<< 16 ||| b6 <<< 8 ||| b7,
     b8 <<< 24 ||| b9 <<< 16 ||| b10 <<< 8 ||| b11,
     b12 <<< 24 ||| b13 <<< 16 ||| b14 <<< 8 ||| b15)
  generalize hfe : List.foldl (SM4_round sbox)
    (b0 <<< 24 ||| b1 <<< 16 ||| b2 <<< 8 ||| b3,
     b4 <<< 24 ||| b5 <<< 16 ||| b6 <<< 8 ||| b7,
     b8 <<< 24 ||| b9 <<< 16 ||| b10 <<< 8 ||| b11,
     b12 <<< 24 ||| b13 <<< 16 ||| b14 <<< 8 ||| b15)
    (SM4_KeySchedule sbox fk ck MK) = f at hfb hinv ⊢
  obtain ⟨f0, f1, f2, f3⟩ := f
  obtain ⟨hf0, hf1, hf2, hf3⟩ := hfb
  simp only [rev4] at hinv ⊢
  simp only [unpackWordBE, List.cons_append, List.nil_append, word4_list0, word4_list1,
    word4_list2, word4_list3]
  rw [pack_unpack f3 hf3, pack_unpack f2 hf2, pack_unpack f1 hf1, pack_unpack f0 hf0]
  rw [hinv]
  simp only [unpack_field0 b0 b1 b2 b3 v1 v2 v3, unpack_field1 b0 b1 b2 b3 v1 v2 v3,
    unpack_field2 b0 b1 b2 b3 v2 v3, unpack_field3 b0 b1 b2 b3 v3,
    unpack_field0 b4 b5 b6 b7 v5 v6 v7, unpack_field1 b4 b5 b6 b7 v5 v6 v7,
    unpack_field2 b4 b5 b6 b7 v6 v7, unpack_field3 b4 b5 b6 b7 v7,
    unpack_field0 b8 b9 b10 b11 v9 v10 v11, unpack_field1 b8 b9 b10 b11 v9 v10 v11,
    unpack_field2 b8 b9 b10 b11 v10 v11, unpack_field3 b8 b9 b10 b11 v11,
    unpack_field0 b12 b13 b14 b15 v13 v14 v15, unpack_field1 b12 b13 b14 b15 v13 v14 v15,
    unpack_field2 b12 b13 b14 b15 v14 v15, unpack_field3 b12 b13 b14 b15 v15,
    Nat.mod_eq_of_lt v0, Nat.mod_eq_of_lt v4, Nat.mod_eq_of_lt v8, Nat.mod_eq_of_lt v12]

theorem SM4_decrypt_encrypt_witness :
    SM4_Decrypt (fun i => i % 256) [1, 2, 3, 4] (List.replicate 32 7)
        [0, 1, 2, 3, 4, 5, 6, 7, 8, 9, 10, 11, 12, 13, 14, 15]
        (SM4_Encrypt (fun i => i % 256) [1, 2, 3, 4] (List.replicate 32 7)
          [0, 1, 2, 3, 4, 5, 6, 7, 8, 9, 10, 11, 12, 13, 14, 15]
          [16, 32, 48, 64, 80, 96, 112, 128, 144, 160, 176, 192, 208, 224, 240, 255]) =
      [16, 32, 48, 64, 80, 96, 112, 128, 144, 160, 176, 192, 208, 224, 240, 255] :=
  (SM4_decrypt_encrypt (fun i => i % 256) [1, 2, 3, 4] (List.replicate 32 7)
    [0, 1, 2, 3, 4, 5, 6, 7, 8, 9, 10, 11, 12, 13, 14, 15]
    [16, 32, 48, 64, 80, 96, 112, 128, 144, 160, 176, 192, 208, 224, 240, 255]
    (fun i => Nat.mod_lt i (by norm_num)) (by decide) (by decide) (by decide)).1

theorem PowMod_le (x k : ℕ) : PowMod x k ≤ 0x7fffffff := Nat.and_le_right

theorem AddMod_mem (a b : ℕ) (ha1 : 1 ≤ a) (ha : a ≤ 0x7fffffff) (hb : b ≤ 0x7fffffff) :
    1 ≤ AddMod a b ∧ AddMod a b ≤ 0x7fffffff := by
  have hmask : ∀ x : ℕ, x &&& 0x7fffffff = x % 2147483648 := fun x => by
    rw [show (0x7fffffff : ℕ) = 2 ^ 31 - 1 from by norm_num, Nat.and_pow_two_sub_one_eq_mod]
  simp only [AddMod, Nat.shiftRight_eq_div_pow, hmask,
    show (2 : ℕ) ^ 32 = 4294967296 from by norm_num,
    show (2 : ℕ) ^ 31 = 2147483648 from by norm_num]
  split_ifs with h <;> omega

theorem LFSR_v_mem (S : List ℕ) (hlen : S.length = 16)
    (hS : ∀ s ∈ S, 1 ≤ s ∧ s ≤ 0x7fffffff) :
    1 ≤ LFSR_v S ∧ LFSR_v S ≤ 0x7fffffff := by
  have hg : ∀ i, i < 16 → 1 ≤ S.getD i 0 ∧ S.getD i 0 ≤ 0x7fffffff := by
    intro i hi
    have hlt : i < S.length := by omega
    rw [List.getD_eq_getElem S 0 hlt]
    exact hS _ (List.getElem_mem hlt)
  have h0 := hg 0 (by norm_num)
  unfold LFSR_v
  have m1 := AddMod_mem _ _ h0.1 h0.2 (PowMod_le (S.getD 15 0) 15)
  have m2 := AddMod_mem _ _ m1.1 m1.2 (PowMod_le (S.getD 13 0) 17)
  have m3 := AddMod_mem _ _ m2.1 m2.2 (PowMod_le (S.getD 10 0) 21)
  have m4 := AddMod_mem _ _ m3.1 m3.2 (PowMod_le (S.getD 4 0) 20)
  exact AddMod_mem _ _ m4.1 m4.2 (PowMod_le (S.getD 0 0) 8)

/-- C7: both LFSR modes preserve the invariant that every one of the sixteen
cells lies in the interval from 1 to `2^31 - 1`; the injection word `u` of
initialization mode is `W >> 1` and hence at most `2^31 - 1`. -/
theorem ZUC_LFSR_invariant (S : List ℕ) (u : ℕ)
    (hlen : S.length = 16) (hS : ∀ s ∈ S, 1 ≤ s ∧ s ≤ 0x7fffffff)
    (hu : u ≤ 0x7fffffff) :
    ((LFSRWithInitMode S u).length = 16 ∧
      ∀ s ∈ LFSRWithInitMode S u, 1 ≤ s ∧ s ≤ 0x7fffffff) ∧
    ((LFSRWithWorkMode S).length = 16 ∧
      ∀ s ∈ LFSRWithWorkMode S, 1 ≤ s ∧ s ≤ 0x7fffffff) := by
  have hv := LFSR_v_mem S hlen hS
  constructor
  · constructor
    · simp [LFSRWithInitMode, hlen]
    · intro s hs
      simp only [LFSRWithInitMode, List.mem_append, List.mem_singleton] at hs
      rcases hs with hs | rfl
      · exact hS s (List.mem_of_mem_drop hs)
      · have hm := AddMod_mem _ _ hv.1 hv.2 hu
        split_ifs with hz
        · norm_num
        · exact ⟨by omega, hm.2⟩
  · constructor
    · simp [LFSRWithWorkMode, hlen]
    · intro s hs
      simp only [LFSRWithWorkMode, List.mem_append, List.mem_singleton] at hs
      rcases hs with hs | rfl
      · exact hS s (List.mem_of_mem_drop hs)
      · split_ifs with hz
        · norm_num
        · exact ⟨by omega, hv.2⟩

theorem ZUC_LFSR_invariant_witness :
    ((LFSRWithInitMode (List.replicate 16 1) 0).length = 16 ∧
      ∀ s ∈ LFSRWithInitMode (List.replicate 16 1) 0, 1 ≤ s ∧ s ≤ 0x7fffffff) ∧
    ((LFSRWithWorkMode (List.replicate 16 1)).length = 16 ∧
      ∀ s ∈ LFSRWithWorkMode (List.replicate 16 1), 1 ≤ s ∧ s ≤ 0x7fffffff) :=
  ZUC_LFSR_invariant (List.replicate 16 1) 0 (by decide) (by decide) (by decide)

theorem range_map_getD (L : ℕ) (f : ℕ → ℕ) (j : ℕ) :
    ((List.range L).map f).getD j 0 = if j < L then f j else 0 := by
  split_ifs with h
  · rw [List.getD_eq_getElem _ _ (by simpa using h)]
    simp
  · apply List.getD_eq_default
    simpa using h

theorem getD_set_ne {l : List ℕ} {i j : ℕ} (h : i ≠ j) (a : ℕ) :
    (l.set i a).getD j 0 = l.getD j 0 := by
  rcases Nat.lt_or_ge j l.length with hj | hj
  · rw [List.getD_eq_getElem _ _ (by simpa using hj), List.getD_eq_getElem _ _ hj]
    exact List.getElem_set_ne h _
  · rw [List.getD_eq_default _ _ (by simpa using hj), List.getD_eq_default _ _ hj]

theorem getD_set_self {l : List ℕ} {i : ℕ} (h : i < l.length) (a : ℕ) :
    (l.set i a).getD i 0 = a := by
  rw [List.getD_eq_getElem _ _ (by simpa using h)]
  exact List.getElem_set_self _

theorem testBit_mask_high {w s b : ℕ} (h : s ≤ b) :
    ((w >>> s) <<< s).testBit b = w.testBit b := by
  rw [Nat.testBit_shiftLeft, Nat.testBit_shiftRight]
  rw [decide_eq_true (show b ≥ s from h), Bool.true_and]
  congr 1
  omega

theorem and_one_shift (x b : ℕ) : (x &&& (1 <<< b) ≠ 0) ↔ x.testBit b = true := by
  rw [Nat.shiftLeft_eq, one_mul, Nat.and_two_pow]
  rcases hx : x.testBit b
  · simp
  · simp [(Nat.two_pow_pos b).ne']

theorem BitValue_testBit (M : List ℕ) (i : ℕ) :
    BitValue M i = if (M.getD (i >>> 5) 0).testBit (31 - (i &&& 0x1f)) then 1 else 0 := by
  unfold BitValue
  simp only [and_one_shift]

theorem ZUC_Conf_getD (genKS : List ℕ → List ℕ → ℕ → List ℕ) (CK : List ℕ)
    (COUNT BEARER DIRECTION : ℕ) (IBS : List ℕ) (LENGTH j : ℕ)
    (hj : j < (LENGTH + 31) / 32) :
    (ZUC_Confidentiality genKS CK COUNT BEARER DIRECTION IBS LENGTH).getD j 0 =
      (if LENGTH % 32 ≠ 0 ∧ j = (LENGTH + 31) / 32 - 1 then
        ((IBS.getD j 0 ^^^
            (genKS CK (EEA3_iv COUNT BEARER DIRECTION) ((LENGTH + 31) / 32)).getD j 0) >>>
              (32 - LENGTH % 32)) <<<
          (32 - LENGTH % 32)
      else
        IBS.getD j 0 ^^^
          (genKS CK (EEA3_iv COUNT BEARER DIRECTION) ((LENGTH + 31) / 32)).getD j 0) := by
  simp only [ZUC_Confidentiality]
  by_cases ht : LENGTH % 32 = 0
  · simp only [ht, ne_eq, not_true_eq_false, if_false, false_and, range_map_getD, hj, if_true]
  · by_cases hje : j = (LENGTH + 31) / 32 - 1
    · subst hje
      simp only [ne_eq, ht, not_false_eq_true, if_true, true_and]
      rw [getD_set_self (by simp; omega), range_map_getD]
      simp only [hj, if_true]
    · simp only [ne_eq, ht, not_false_eq_true, if_true]
      rw [getD_set_ne (fun hc => hje hc.symm), range_map_getD]
      simp only [hj, if_true, ht, hje, and_false, if_false]

theorem ZUC_Conf_length (genKS : List ℕ → List ℕ → ℕ → List ℕ) (CK : List ℕ)
    (COUNT BEARER DIRECTION : ℕ) (IBS : List ℕ) (LENGTH : ℕ) :
    (ZUC_Confidentiality genKS CK COUNT BEARER DIRECTION IBS LENGTH).length =
      (LENGTH + 31) / 32 := by
  simp only [ZUC_Confidentiality]
  split_ifs <;> simp

/-- C8: 128-EEA3 applied twice with the same key and IV parameters restores
every bit of the input stream of bit length `LENGTH`, and preserves the
word length `(LENGTH + 31) / 32`; keystream words beyond position `LENGTH`
cancel in the XOR, and the final-word mask only clears bits past position
`LENGTH`.  The keystream generator `ZUC_GenKeyStream` is the parameter
`genKS`, a pure function of key, IV and word count. -/
theorem EEA3_self_inverse (genKS : List ℕ → List ℕ → ℕ → List ℕ) (CK : List ℕ)
    (COUNT BEARER DIRECTION : ℕ) (IBS : List ℕ) (LENGTH : ℕ) (i : ℕ) (hi : i < LENGTH) :
    (ZUC_Confidentiality genKS CK COUNT BEARER DIRECTION
        (ZUC_Confidentiality genKS CK COUNT BEARER DIRECTION IBS LENGTH) LENGTH).length =
      (LENGTH + 31) / 32 ∧
    BitValue (ZUC_Confidentiality genKS CK COUNT BEARER DIRECTION
        (ZUC_Confidentiality genKS CK COUNT BEARER DIRECTION IBS LENGTH) LENGTH) i =
      BitValue IBS i := by
  refine ⟨ZUC_Conf_length _ _ _ _ _ _ _, ?_⟩
  have e1 : i >>> 5 = i / 32 := by
    rw [Nat.shiftRight_eq_div_pow]
  have e2 : i &&& 0x1f = i % 32 := by
    rw [show (0x1f : ℕ) = 2 ^ 5 - 1 from rfl, Nat.and_pow_two_sub_one_eq_mod]
  have hj : i >>> 5 < (LENGTH + 31) / 32 := by
    rw [e1]; omega
  rw [BitValue_testBit, BitValue_testBit]
  rw [ZUC_Conf_getD _ _ _ _ _ _ _ _ hj, ZUC_Conf_getD _ _ _ _ _ _ _ _ hj]
  by_cases hc : LENGTH % 32 ≠ 0 ∧ i >>> 5 = (LENGTH + 31) / 32 - 1
  · rw [if_pos hc, if_pos hc]
    have hmt : i % 32 < LENGTH % 32 := by
      obtain ⟨ht, hje⟩ := hc
      rw [e1] at hje
      omega
    have hb : 32 - LENGTH % 32 ≤ 31 - (i &&& 0x1f) := by
      rw [e2]; omega
    rw [testBit_mask_high hb]
    simp only [Nat.testBit_xor]
    rw [testBit_mask_high hb]
    simp only [Nat.testBit_xor, Bool.xor_assoc, Bool.xor_self, Bool.xor_false]
  · rw [if_neg hc, if_neg hc]
    simp only [Nat.testBit_xor, Bool.xor_assoc, Bool.xor_self, Bool.xor_false]

theorem EEA3_self_inverse_witness :
    (0 : ℕ) < 33 ∧
    ((ZUC_Confidentiality (fun _ _ L => List.replicate L 0xdeadbeef) [1] 2 3 1
        (ZUC_Confidentiality (fun _ _ L => List.replicate L 0xdeadbeef) [1] 2 3 1
          [0xcafe0000, 0x12340000] 33) 33).length = (33 + 31) / 32 ∧
      BitValue (ZUC_Confidentiality (fun _ _ L => List.replicate L 0xdeadbeef) [1] 2 3 1
          (ZUC_Confidentiality (fun _ _ L => List.replicate L 0xdeadbeef) [1] 2 3 1
            [0xcafe0000, 0x12340000] 33) 33) 0 =
        BitValue [0xcafe0000, 0x12340000] 0) :=
  ⟨by decide,
    EEA3_self_inverse (fun _ _ L => List.replicate L 0xdeadbeef) [1] 2 3 1
      [0xcafe0000, 0x12340000] 33 0 (by decide)⟩

theorem foldl_filter_eq {α β : Type _} (p : α → Bool) (f : β → α → β) :
    ∀ (l : List α) (init : β),
      (l.filter p).foldl f init =
        l.foldl (fun acc x => if p x then f acc x else acc) init := by
  intro l
  induction l with
  | nil => intro init; rfl
  | cons a t ih =>
    intro init
    by_cases h : p a
    · simp only [List.filter_cons, h, if_true, List.foldl_cons, ih]
    · simp only [List.filter_cons, h, if_false, List.foldl_cons, ih, Bool.false_eq_true]

/-- C9: 128-EIA3 requests exactly `L = (LENGTH + 31) / 32 + 2` keystream
words; the MAC is the XOR of `GetWord k i` over the set message bits,
`GetWord k LENGTH` and `GetWord k (32 * (L - 1))`; and every `GetWord`
extraction performed reads only words with index below `L` (it reads word
`i >> 5`, and also word `i >> 5 + 1` only when `i` is not word-aligned).
The keystream generator `ZUC_GenKeyStream` is the parameter `genKS`. -/
theorem ZUC_Integrity_spec (genKS : List ℕ → List ℕ → ℕ → List ℕ) (IK : List ℕ)
    (COUNT BEARER DIRECTION : ℕ) (M : List ℕ) (LENGTH : ℕ) :
    ZUC_Integrity genKS IK COUNT BEARER DIRECTION M LENGTH =
      ((((List.range LENGTH).filter (fun i => decide (BitValue M i = 1))).foldl
          (fun T i =>
            T ^^^ GetWord (genKS IK (EIA3_iv COUNT BEARER DIRECTION)
              ((LENGTH + 31) / 32 + 2)) i) 0 ^^^
        GetWord (genKS IK (EIA3_iv COUNT BEARER DIRECTION) ((LENGTH + 31) / 32 + 2))
          LENGTH) ^^^
        GetWord (genKS IK (EIA3_iv COUNT BEARER DIRECTION) ((LENGTH + 31) / 32 + 2))
          (32 * ((LENGTH + 31) / 32 + 2 - 1))) ∧
    (∀ i ≤ LENGTH,
      i >>> 5 + (if i &&& 0x1f = 0 then 0 else 1) < (LENGTH + 31) / 32 + 2) ∧
    (32 * ((LENGTH + 31) / 32 + 2 - 1)) >>> 5 +
        (if (32 * ((LENGTH + 31) / 32 + 2 - 1)) &&& 0x1f = 0 then 0 else 1) <
      (LENGTH + 31) / 32 + 2 := by
  refine ⟨?_, ?_, ?_⟩
  · simp only [ZUC_Integrity, foldl_filter_eq, decide_eq_true_eq]
  · intro i hi
    have e1 : i >>> 5 = i / 32 := by
      rw [Nat.shiftRight_eq_div_pow]
    have e2 : i &&& 0x1f = i % 32 := by
      rw [show (0x1f : ℕ) = 2 ^ 5 - 1 from rfl, Nat.and_pow_two_sub_one_eq_mod]
    rw [e1, e2]
    split_ifs <;> omega
  · have e1 : (32 * ((LENGTH + 31) / 32 + 2 - 1)) >>> 5 =
        32 * ((LENGTH + 31) / 32 + 2 - 1) / 32 := by
      rw [Nat.shiftRight_eq_div_pow]
    have e2 : (32 * ((LENGTH + 31) / 32 + 2 - 1)) &&& 0x1f =
        32 * ((LENGTH + 31) / 32 + 2 - 1) % 32 := by
      rw [show (0x1f : ℕ) = 2 ^ 5 - 1 from rfl, Nat.and_pow_two_sub_one_eq_mod]
    rw [e1, e2]
    split_ifs with h <;> omega

theorem ZUC_Integrity_spec_witness :
    (5 : ℕ) ≤ 40 ∧
    (5 : ℕ) >>> 5 + (if (5 : ℕ) &&& 0x1f = 0 then 0 else 1) < (40 + 31) / 32 + 2 :=
  ⟨by decide,
    (ZUC_Integrity_spec (fun _ _ L => List.replicate L 9) [2] 0 0 0 [7] 40).2.1 5 (by decide)⟩

theorem toBytesBE_length (w : ℕ) : ∀ x : ℕ, (toBytesBE w x).length = w := by
  induction w with
  | zero => intro x; rfl
  | succ v ih =>
    intro x
    simp only [toBytesBE, List.length_append, ih, List.length_cons, List.length_nil]

theorem toBytesBE_mem_lt (w : ℕ) : ∀ x : ℕ, ∀ b ∈ toBytesBE w x, b < 256 := by
  induction w with
  | zero => intro x b hb; simp [toBytesBE] at hb
  | succ v ih =>
    intro x b hb
    simp only [toBytesBE, List.mem_append, List.mem_singleton] at hb
    rcases hb with hb | rfl
    · exact ih _ b hb
    · exact Nat.mod_lt _ (by norm_num)

theorem fromBytesBE_toBytesBE (w : ℕ) : ∀ x : ℕ, fromBytesBE (toBytesBE w x) = x % 256 ^ w := by
  induction w with
  | zero => intro x; simp [toBytesBE, fromBytesBE, Nat.mod_one]
  | succ v ih =>
    intro x
    have hfold : fromBytesBE (toBytesBE v (x / 256) ++ [x % 256]) =
        fromBytesBE (toBytesBE v (x / 256)) * 256 + x % 256 := by
      simp [fromBytesBE, List.foldl_append]
    simp only [toBytesBE, hfold, ih]
    have hmul : x % (256 * 256 ^ v) = x % 256 + 256 * (x / 256 % 256 ^ v) := Nat.mod_mul
    rw [pow_succ, mul_comm (256 ^ v) 256, hmul]
    ring

theorem fromBytesBE_toBytesBE32 {x : ℕ} (h : x < 2 ^ 256) :
    fromBytesBE (toBytesBE 32 x) = x := by
  rw [fromBytesBE_toBytesBE]
  exact Nat.mod_eq_of_lt (by calc x < 2 ^ 256 := h
    _ = 256 ^ 32 := by norm_num)

theorem take_toBytesBE32 (x : ℕ) : (toBytesBE 32 x).take 32 = toBytesBE 32 x :=
  List.take_of_length_le (by rw [toBytesBE_length])

theorem egcdAux_spec (a n : ℕ) :
    ∀ r1 : ℕ, ∀ fuel r0 : ℕ, ∀ s0 s1 : ℤ, r1 ≤ fuel →
      Int.ModEq (n : ℤ) (s0 * a) (r0 : ℤ) → Int.ModEq (n : ℤ) (s1 * a) (r1 : ℤ) →
      (egcdAux fuel r0 r1 s0 s1).1 = Nat.gcd r0 r1 ∧
      Int.ModEq (n : ℤ) ((egcdAux fuel r0 r1 s0 s1).2 * a)
        (((egcdAux fuel r0 r1 s0 s1).1 : ℕ) : ℤ) := by
  intro r1
  induction r1 using Nat.strong_induction_on with
  | _ r1 ih =>
    intro fuel r0 s0 s1 hfuel h0 h1
    match fuel with
    | 0 =>
      have hz : r1 = 0 := by omega
      subst hz
      exact ⟨(Nat.gcd_zero_right r0).symm, h0⟩
    | f + 1 =>
      by_cases hz : r1 = 0
      · subst hz
        simp only [egcdAux, if_true]
        exact ⟨(Nat.gcd_zero_right r0).symm, h0⟩
      · simp only [egcdAux, hz, if_false]
        have hpos : 0 < r1 := Nat.pos_of_ne_zero hz
        have hlt : r0 % r1 < r1 := Nat.mod_lt _ hpos
        have hinv : Int.ModEq (n : ℤ) ((s0 - (r0 / r1 : ℕ) * s1) * a) ((r0 % r1 : ℕ) : ℤ) := by
          have key : ((r0 % r1 : ℕ) : ℤ) = (r0 : ℤ) - ((r0 / r1 : ℕ) : ℤ) * (r1 : ℤ) := by
            have h2 : (r1 : ℤ) * ((r0 / r1 : ℕ) : ℤ) + ((r0 % r1 : ℕ) : ℤ) = (r0 : ℤ) := by
              exact_mod_cast congrArg (Nat.cast : ℕ → ℤ) (Nat.div_add_mod r0 r1)
            linarith [h2]
          rw [key]
          have step := h0.sub (h1.mul_left ((r0 / r1 : ℕ) : ℤ))
          have harr : (s0 - (r0 / r1 : ℕ) * s1) * (a : ℤ) =
              s0 * a - (r0 / r1 : ℕ) * (s1 * a) := by ring
          rw [harr]
          exact step
        have hrec := ih (r0 % r1) hlt f r1 s1 (s0 - (r0 / r1 : ℕ) * s1) (by omega) h1 hinv
        refine ⟨?_, hrec.2⟩
        rw [hrec.1]
        rw [Nat.gcd_comm r1 (r0 % r1), ← Nat.gcd_rec r1 r0, Nat.gcd_comm r1 r0]

theorem modInv_mul {a n : ℕ} (h : Nat.Coprime a n) (hn : 1 < n) :
    (a * modInv a n) % n = 1 := by
  have hnz : (n : ℤ) ≠ 0 := by exact_mod_cast (by omega : n ≠ 0)
  have hspec := egcdAux_spec a n n n a 1 0 (le_refl n)
    (by simp [Int.ModEq])
    (by simp [Int.ModEq, Int.emod_self])
  obtain ⟨hg, hx⟩ := hspec
  rw [hg, h] at hx
  have hnn : (((egcdAux n a n 1 0).2 % (n : ℤ)).toNat : ℤ) =
      (egcdAux n a n 1 0).2 % (n : ℤ) :=
    Int.toNat_of_nonneg (Int.emod_nonneg _ hnz)
  have hZ : ((a : ℤ) * (modInv a n : ℕ)) % n = 1 % n := by
    unfold modInv
    rw [hnn]
    calc ((a : ℤ) * ((egcdAux n a n 1 0).2 % n)) % n
        = ((a : ℤ) * (egcdAux n a n 1 0).2) % n := by
          rw [Int.mul_emod, Int.emod_emod_of_dvd _ dvd_rfl, ← Int.mul_emod]
      _ = ((egcdAux n a n 1 0).2 * a) % n := by ring_nf
      _ = ((1 : ℕ) : ℤ) % n := hx
      _ = 1 % n := by norm_num
  have hNat : (a * modInv a n) % n = 1 % n := by
    have hcast : (((a * modInv a n) % n : ℕ) : ℤ) = ((1 % n : ℕ) : ℤ) := by
      push_cast
      exact_mod_cast hZ
    exact_mod_cast hcast
  rw [hNat, Nat.mod_eq_of_lt hn]

theorem SM2n_gt_one : 1 < SM2n := by norm_num [SM2n]

theorem SM2n_lt_two_pow : SM2n < 2 ^ 256 := by norm_num [SM2n]

/-- C5: `SM2_Sign` computes `e = SM3(ZA ‖ M)` big-endian, `(x1, y1) = k·G`,
`r = (e + x1) mod n`; it returns `ERR_GENERATE_R` exactly when `r = 0` or
`r + k = n`; otherwise, with `s = ((1 + d)⁻¹ (k - r·d)) mod n` (the inverse
computed by the `xgcd` Bezout coefficient), it returns `ERR_GENERATE_S`
exactly when `s = 0`; otherwise it outputs `r` and `s` as 32-byte
big-endian values and returns success. -/
theorem SM2_Sign_spec (hash : List ℕ → List ℕ) (xfun : ℕ → ℕ)
    (message ZA rand d : List ℕ) (e k dA x1 r z1 z2 s : ℕ)
    (he : e = fromBytesBE ((hash (ZA.take 32 ++ message)).take 32))
    (hk : k = fromBytesBE (rand.take 32))
    (hdA : dA = fromBytesBE (d.take 32))
    (hx1 : x1 = xfun (pmul k Gidx))
    (hr : r = (e + x1) % SM2n)
    (hz1 : z1 = modInv (dA + 1) SM2n)
    (hz2 : z2 = (r * dA) % SM2n)
    (hs : s = (z1 * (k + SM2n - z2)) % SM2n) :
    (SM2_Sign hash xfun message ZA rand d = Except.error ERR_GENERATE_R ↔
      r = 0 ∨ r + k = SM2n) ∧
    (¬(r = 0 ∨ r + k = SM2n) →
      (SM2_Sign hash xfun message ZA rand d = Except.error ERR_GENERATE_S ↔ s = 0)) ∧
    (¬(r = 0 ∨ r + k = SM2n) → s ≠ 0 →
      SM2_Sign hash xfun message ZA rand d =
        Except.ok (toBytesBE 32 r, toBytesBE 32 s)) := by
  have hbody : SM2_Sign hash xfun message ZA rand d =
      if r = 0 ∨ r + k = SM2n then Except.error ERR_GENERATE_R
      else if s = 0 then Except.error ERR_GENERATE_S
      else Except.ok (toBytesBE 32 r, toBytesBE 32 s) := by
    simp only [SM2_Sign]
    rw [← he, ← hk, ← hdA, ← hx1, ← hr, ← hz1, ← hz2, ← hs]
  rw [hbody]
  refine ⟨?_, ?_, ?_⟩
  · by_cases h1 : r = 0 ∨ r + k = SM2n
    · simp [h1]
    · by_cases h2 : s = 0 <;>
        simp [h1, h2, ERR_GENERATE_R, ERR_GENERATE_S]
  · intro h1
    by_cases h2 : s = 0 <;> simp [h1, h2, ERR_GENERATE_R, ERR_GENERATE_S]
  · intro h1 h2
    simp [h1, h2]

theorem SM2_Sign_spec_witness :
    SM2_Sign (fun _ => List.replicate 31 0 ++ [1]) (fun _ => 0) [3] [4] [2] [1] =
        Except.error ERR_GENERATE_R ↔
      (fromBytesBE (((fun (_ : List ℕ) => List.replicate 31 0 ++ [1])
            (([4] : List ℕ).take 32 ++ [3])).take 32) +
          (fun (_ : ℕ) => 0) (pmul (fromBytesBE (([2] : List ℕ).take 32)) Gidx)) % SM2n = 0 ∨
      (fromBytesBE (((fun (_ : List ℕ) => List.replicate 31 0 ++ [1])
            (([4] : List ℕ).take 32 ++ [3])).take 32) +
          (fun (_ : ℕ) => 0) (pmul (fromBytesBE (([2] : List ℕ).take 32)) Gidx)) % SM2n +
        fromBytesBE (([2] : List ℕ).take 32) = SM2n :=
  (SM2_Sign_spec (fun _ => List.replicate 31 0 ++ [1]) (fun _ => 0) [3] [4] [2] [1]
    _ _ _ _ _ _ _ _ rfl rfl rfl rfl rfl rfl rfl rfl).1

/-- C6: `SM2_Verify` rejects with `ERR_OUTRANGE_R` when `r` is outside
`[1, n-1]` and with `ERR_OUTRANGE_S` when `s` is; it recomputes
`e = SM3(ZA ‖ M)`, sets `t = (r + s) mod n` and rejects with
`ERR_GENERATE_T` when `t = 0`; it computes `(x1, y1) = s·G + t·PA` and
returns success exactly when `(e + x1) mod n = r`, `ERR_DATA_MEMCMP`
otherwise.  `PA` is the public key parsed from its coordinate bytes. -/
theorem SM2_Verify_spec (hash : List ℕ → List ℕ) (xfun : ℕ → ℕ)
    (pset : ℕ → ℕ → Option ℕ) (message ZA Px Py R S : List ℕ)
    (r s e t PA x1 : ℕ)
    (hr : r = fromBytesBE (R.take 32))
    (hs : s = fromBytesBE (S.take 32))
    (hPA : pset (fromBytesBE (Px.take 32)) (fromBytesBE (Py.take 32)) = some PA)
    (he : e = fromBytesBE ((hash (ZA.take 32 ++ message)).take 32))
    (ht : t = (r + s) % SM2n)
    (hx1 : x1 = xfun (padd (pmul s Gidx) (pmul t PA))) :
    (SM2_Verify hash xfun pset message ZA Px Py R S = ERR_OUTRANGE_R ↔
      r < 1 ∨ SM2n - 1 < r) ∧
    (¬(r < 1 ∨ SM2n - 1 < r) →
      (SM2_Verify hash xfun pset message ZA Px Py R S = ERR_OUTRANGE_S ↔
        s < 1 ∨ SM2n - 1 < s)) ∧
    (¬(r < 1 ∨ SM2n - 1 < r) → ¬(s < 1 ∨ SM2n - 1 < s) →
      (SM2_Verify hash xfun pset message ZA Px Py R S = ERR_GENERATE_T ↔ t = 0)) ∧
    (¬(r < 1 ∨ SM2n - 1 < r) → ¬(s < 1 ∨ SM2n - 1 < s) → t ≠ 0 →
      ((SM2_Verify hash xfun pset message ZA Px Py R S = 0 ↔ (e + x1) % SM2n = r) ∧
       (SM2_Verify hash xfun pset message ZA Px Py R S = ERR_DATA_MEMCMP ↔
         (e + x1) % SM2n ≠ r))) := by
  have hbody : SM2_Verify hash xfun pset message ZA Px Py R S =
      if r < 1 ∨ SM2n - 1 < r then ERR_OUTRANGE_R
      else if s < 1 ∨ SM2n - 1 < s then ERR_OUTRANGE_S
      else if t = 0 then ERR_GENERATE_T
      else if (e + x1) % SM2n = r then 0 else ERR_DATA_MEMCMP := by
    simp only [SM2_Verify, hPA]
    rw [← hr, ← hs, ← he, ← ht, ← hx1]
  rw [hbody]
  refine ⟨?_, ?_, ?_, ?_⟩
  · by_cases h1 : r < 1 ∨ SM2n - 1 < r
    · rw [if_pos h1]
      exact iff_of_true rfl h1
    · rw [if_neg h1]
      apply iff_of_false ?_ h1
      split_ifs <;> decide
  · intro h1
    rw [if_neg h1]
    by_cases h2 : s < 1 ∨ SM2n - 1 < s
    · rw [if_pos h2]
      exact iff_of_true rfl h2
    · rw [if_neg h2]
      apply iff_of_false ?_ h2
      split_ifs <;> decide
  · intro h1 h2
    rw [if_neg h1, if_neg h2]
    by_cases h3 : t = 0
    · rw [if_pos h3]
      exact iff_of_true rfl h3
    · rw [if_neg h3]
      apply iff_of_false ?_ h3
      split_ifs <;> decide
  · intro h1 h2 h3
    rw [if_neg h1, if_neg h2, if_neg h3]
    constructor
    · by_cases h4 : (e + x1) % SM2n = r
      · rw [if_pos h4]
        exact iff_of_true rfl h4
      · rw [if_neg h4]
        exact iff_of_false (by decide) h4
    · by_cases h4 : (e + x1) % SM2n = r
      · rw [if_pos h4]
        exact iff_of_false (by decide) (not_not_intro h4)
      · rw [if_neg h4]
        exact iff_of_true rfl h4

theorem SM2_Verify_spec_witness :
    SM2_Verify (fun _ => [1]) (fun _ => 0) (fun _ _ => some 1) [3] [4] [5] [6] [7] [8] =
        ERR_OUTRANGE_R ↔
      fromBytesBE (([7] : List ℕ).take 32) < 1 ∨
        SM2n - 1 < fromBytesBE (([7] : List ℕ).take 32) :=
  (SM2_Verify_spec (fun _ => [1]) (fun _ => 0) (fun _ _ => some 1) [3] [4] [5] [6] [7] [8]
    _ _ _ _ _ _ rfl rfl rfl rfl rfl rfl).1

/-- C1: signing a message with a valid private key `d` (in `[1, n-2]`) and
a random `k` in `[1, n-1]`, then verifying the produced `(R, S)` against
the public key `P = d·G`, succeeds (returns 0).  The statement is
conditional on `SM2_Sign` succeeding, since the sign step itself can
reject degenerate `r` or `s`.  The coordinate maps are bounded by `2^256`
(32-byte serialization), and `pset` recovers the public-key index from its
coordinates, as `epoint_set` recovers the point. -/
theorem SM2_sign_verify (hash : List ℕ → List ℕ) (xfun yfun : ℕ → ℕ)
    (pset : ℕ → ℕ → Option ℕ) (message ZA rand d R S : List ℕ)
    (hd1 : 1 ≤ fromBytesBE (d.take 32))
    (hd2 : fromBytesBE (d.take 32) ≤ SM2n - 2)
    (hk1 : 1 ≤ fromBytesBE (rand.take 32))
    (hk2 : fromBytesBE (rand.take 32) ≤ SM2n - 1)
    (hxb : ∀ j, xfun j < 2 ^ 256) (hyb : ∀ j, yfun j < 2 ^ 256)
    (hpset : pset (xfun (pmul (fromBytesBE (d.take 32)) Gidx))
        (yfun (pmul (fromBytesBE (d.take 32)) Gidx)) =
      some (pmul (fromBytesBE (d.take 32)) Gidx))
    (hsig : SM2_Sign hash xfun message ZA rand d = Except.ok (R, S)) :
    SM2_Verify hash xfun pset message ZA
      (toBytesBE 32 (xfun (pmul (fromBytesBE (d.take 32)) Gidx)))
      (toBytesBE 32 (yfun (pmul (fromBytesBE (d.take 32)) Gidx))) R S = 0 := by
  have hNgt : 1 < SM2n := SM2n_gt_one
  haveI : NeZero SM2n := ⟨by omega⟩
  set dA := fromBytesBE (d.take 32) with hdA
  set k := fromBytesBE (rand.take 32) with hk
  set e := fromBytesBE ((hash (ZA.take 32 ++ message)).take 32) with he
  set x1 := xfun (pmul k Gidx) with hx1
  set r := (e + x1) % SM2n with hr
  set z1 := modInv (dA + 1) SM2n with hz1
  set z2 := (r * dA) % SM2n with hz2
  set s := (z1 * (k + SM2n - z2)) % SM2n with hs
  have hbody : SM2_Sign hash xfun message ZA rand d =
      if r = 0 ∨ r + k = SM2n then Except.error ERR_GENERATE_R
      else if s = 0 then Except.error ERR_GENERATE_S
      else Except.ok (toBytesBE 32 r, toBytesBE 32 s) := by
    simp only [SM2_Sign]
  rw [hbody] at hsig
  by_cases h1 : r = 0 ∨ r + k = SM2n
  · rw [if_pos h1] at hsig
    exact absurd hsig (by simp)
  rw [if_neg h1] at hsig
  by_cases h2 : s = 0
  · rw [if_pos h2] at hsig
    exact absurd hsig (by simp)
  rw [if_neg h2] at hsig
  push_neg at h1
  obtain ⟨hr0, hrk⟩ := h1
  simp only [Except.ok.injEq, Prod.mk.injEq] at hsig
  obtain ⟨hRr, hSs⟩ := hsig
  subst hRr hSs
  have hrlt : r < SM2n := Nat.mod_lt _ (by omega)
  have hslt : s < SM2n := Nat.mod_lt _ (by omega)
  have hz2lt : z2 < SM2n := Nat.mod_lt _ (by omega)
  have hdAmod : dA % SM2n = dA := Nat.mod_eq_of_lt (by omega)
  have hkmod : k % SM2n = k := Nat.mod_eq_of_lt (by omega)
  have hPAidx : pmul dA Gidx = dA := by
    unfold pmul Gidx
    rw [mul_one, hdAmod]
  -- coprimality of dA + 1 with the prime order n
  have hcop : Nat.Coprime (dA + 1) SM2n := by
    apply Nat.Coprime.symm
    apply (Nat.Prime.coprime_iff_not_dvd SM2n_prime).mpr
    intro hdvd
    have := Nat.le_of_dvd (by omega) hdvd
    omega
  have hinv := modInv_mul hcop hNgt
  -- the modular algebra, in ZMod n
  have hunit : ((dA : ZMod SM2n) + 1) * (z1 : ZMod SM2n) = 1 := by
    calc ((dA : ZMod SM2n) + 1) * z1 = (((dA + 1) * z1 : ℕ) : ZMod SM2n) := by
          push_cast
          ring
      _ = ((((dA + 1) * z1) % SM2n : ℕ) : ZMod SM2n) := (ZMod.natCast_mod _ _).symm
      _ = ((1 : ℕ) : ZMod SM2n) := by rw [hz1, hinv]
      _ = 1 := Nat.cast_one
  have hz2' : ((z2 : ℕ) : ZMod SM2n) = (r : ZMod SM2n) * dA := by
    rw [hz2, ZMod.natCast_mod, Nat.cast_mul]
  have hs' : ((s : ℕ) : ZMod SM2n) =
      (z1 : ZMod SM2n) * ((k : ZMod SM2n) - (r : ZMod SM2n) * dA) := by
    rw [hs, ZMod.natCast_mod, Nat.cast_mul, Nat.cast_sub (by omega), Nat.cast_add,
      ZMod.natCast_self, add_zero, hz2']
  have hmain : ((s : ℕ) : ZMod SM2n) + (((r : ℕ) : ZMod SM2n) + s) * dA =
      ((k : ℕ) : ZMod SM2n) := by
    rw [hs']
    calc (z1 : ZMod SM2n) * (k - r * dA) + (r + z1 * (k - r * dA)) * dA
        = ((dA : ZMod SM2n) + 1) * z1 * (k - r * dA) + r * dA := by ring
      _ = 1 * ((k : ZMod SM2n) - r * dA) + r * dA := by rw [hunit]
      _ = (k : ZMod SM2n) := by ring
  -- t = (r + s) mod n is nonzero
  have htnz : (r + s) % SM2n ≠ 0 := by
    intro htz
    have hz : ((r + s : ℕ) : ZMod SM2n) = 0 := by
      rw [← ZMod.natCast_mod, htz, Nat.cast_zero]
    push_cast at hz
    have hksk : ((r + k : ℕ) : ZMod SM2n) = 0 := by
      push_cast
      have : ((k : ℕ) : ZMod SM2n) = (s : ZMod SM2n) + ((r : ZMod SM2n) + s) * dA :=
        hmain.symm
      rw [this]
      have hsr : (s : ZMod SM2n) = - (r : ZMod SM2n) := by
        have := hz
        linear_combination this
      rw [hsr]
      ring
    have hdvd : SM2n ∣ r + k := (ZMod.natCast_zmod_eq_zero_iff_dvd _ _).mp hksk
    obtain ⟨c, hc⟩ := hdvd
    have hcub : r + k ≤ 2 * SM2n - 2 := by omega
    rcases Nat.lt_or_ge c 2 with hc2 | hc2
    · interval_cases c <;> omega
    · have : SM2n * 2 ≤ SM2n * c := Nat.mul_le_mul_left _ hc2
      omega
  -- the recomputed point index equals k
  have hidx : padd (pmul s Gidx) (pmul ((r + s) % SM2n) (pmul dA Gidx)) = pmul k Gidx := by
    unfold padd pmul Gidx
    rw [mul_one, mul_one, hdAmod]
    have hmodeq : (s % SM2n + ((r + s) % SM2n * dA) % SM2n) % SM2n = k % SM2n := by
      apply (ZMod.natCast_eq_natCast_iff' _ _ _).mp
      push_cast [ZMod.natCast_mod]
      linear_combination hmain
    rw [hmodeq, mul_one]
  -- evaluate the verification
  have hparse_r : fromBytesBE ((toBytesBE 32 r).take 32) = r := by
    rw [take_toBytesBE32, fromBytesBE_toBytesBE32 (by have := SM2n_lt_two_pow; omega)]
  have hparse_s : fromBytesBE ((toBytesBE 32 s).take 32) = s := by
    rw [take_toBytesBE32, fromBytesBE_toBytesBE32 (by have := SM2n_lt_two_pow; omega)]
  have hparse_x : fromBytesBE ((toBytesBE 32 (xfun (pmul dA Gidx))).take 32) =
      xfun (pmul dA Gidx) := by
    rw [take_toBytesBE32, fromBytesBE_toBytesBE32 (hxb _)]
  have hparse_y : fromBytesBE ((toBytesBE 32 (yfun (pmul dA Gidx))).take 32) =
      yfun (pmul dA Gidx) := by
    rw [take_toBytesBE32, fromBytesBE_toBytesBE32 (hyb _)]
  simp only [SM2_Verify, hparse_r, hparse_s, hparse_x, hparse_y, hpset, ← he]
  rw [if_neg (by omega : ¬(r < 1 ∨ SM2n - 1 < r)),
    if_neg (by omega : ¬(s < 1 ∨ SM2n - 1 < s)),
    if_neg htnz, hidx, ← hx1, if_pos hr.symm]

theorem SM2_sign_verify_witness :
    SM2_Verify (fun _ => List.replicate 31 0 ++ [1]) (fun _ => 0) (fun _ _ => some 1)
      [3] [4] (toBytesBE 32 0) (toBytesBE 32 0) (toBytesBE 32 1)
      (toBytesBE 32 (modInv 2 SM2n * (2 + SM2n - 1) % SM2n)) = 0 :=
  SM2_sign_verify (fun _ => List.replicate 31 0 ++ [1]) (fun _ => 0) (fun _ => 0)
    (fun _ _ => some 1) [3] [4] [2] [1] (toBytesBE 32 1)
    (toBytesBE 32 (modInv 2 SM2n * (2 + SM2n - 1) % SM2n))
    (by decide) (by decide) (by decide) (by decide) (fun _ => Nat.two_pow_pos 256)
    (fun _ => Nat.two_pow_pos 256) (by decide) (by rfl)

theorem SM3_KDF_length (hash : List ℕ → List ℕ) (hh : ∀ bs, (hash bs).length = 32)
    (Z : List ℕ) (klen : ℕ) : (SM3_KDF hash Z klen).length = klen := by
  unfold SM3_KDF
  rw [List.length_take]
  apply Nat.min_eq_left
  rw [List.length_flatten]
  have hmap : ((List.range (if klen * 8 % 256 ≠ 0 then klen * 8 / 256 + 1 else klen * 8 / 256)).map
      (fun i => (hash (Z ++ toBytesBE 4 (i + 1))).take 32)).map List.length =
      (List.range (if klen * 8 % 256 ≠ 0 then klen * 8 / 256 + 1 else klen * 8 / 256)).map
        (fun _ => 32) := by
    rw [List.map_map]
    apply List.map_congr_left
    intro i _
    simp [List.length_take, hh]
  rw [hmap, List.map_const', List.sum_replicate, List.length_range, smul_eq_mul]
  split_ifs with h <;> omega

theorem zipWith_xor_cancel :
    ∀ (t M : List ℕ), M.length = t.length →
      List.zipWith (fun a b => a ^^^ b) t (List.zipWith (fun a b => a ^^^ b) M t) = M := by
  intro t
  induction t with
  | nil =>
    intro M hM
    rw [List.length_nil, List.length_eq_zero] at hM
    subst hM
    rfl
  | cons a t ih =>
    intro M hM
    rcases M with _ | ⟨m, M⟩
    · simp at hM
    · simp only [List.zipWith_cons_cons, List.cons.injEq]
      constructor
      · rw [Nat.xor_comm m a, ← Nat.xor_assoc, Nat.xor_self, Nat.zero_xor]
      · exact ih M (by simpa using hM)

/-- C4: on success `SM2_Encrypt` emits `C1 ‖ C3 ‖ C2` of total length
`klen + 96`: the bare 64-byte big-endian `X ‖ Y` of the ephemeral point
`k·G` at offset 0 (no `0x04` uncompressed-point prefix byte), the 32-byte
tag `C3 = SM3(x2 ‖ M ‖ y2)` at offset 64, and `C2 = M ⊕ KDF(x2 ‖ y2, klen)`
from offset 96. -/
theorem SM2_Encrypt_layout (hash : List ℕ → List ℕ) (xfun yfun : ℕ → ℕ)
    (randK : List ℕ) (pubKey : ℕ) (M : List ℕ) (klen : ℕ) (C : List ℕ)
    (hhash : ∀ bs, (hash bs).length = 32) (hM : M.length = klen)
    (hok : SM2_Encrypt hash xfun yfun randK pubKey M klen = Except.ok C) :
    C.length = klen + 96 ∧
    C.take 64 = toBytesBE 32 (xfun (pmul (fromBytesBE (randK.take 32)) Gidx)) ++
      toBytesBE 32 (yfun (pmul (fromBytesBE (randK.take 32)) Gidx)) ∧
    (C.drop 64).take 32 =
      hash (toBytesBE 32 (xfun (pmul (fromBytesBE (randK.take 32)) pubKey)) ++ M ++
        toBytesBE 32 (yfun (pmul (fromBytesBE (randK.take 32)) pubKey))) ∧
    C.drop 96 = List.zipWith (fun a b => a ^^^ b) M
      (SM3_KDF hash
        (toBytesBE 32 (xfun (pmul (fromBytesBE (randK.take 32)) pubKey)) ++
          toBytesBE 32 (yfun (pmul (fromBytesBE (randK.take 32)) pubKey))) klen) := by
  have hMt : M.take klen = M := by
    rw [← hM]
    exact List.take_length M
  simp only [SM2_Encrypt, hMt] at hok
  set k := fromBytesBE (randK.take 32) with hk
  by_cases h1 : pinf (pmul 1 pubKey)
  · rw [if_pos h1] at hok
    exact absurd hok (by simp)
  rw [if_neg h1] at hok
  by_cases h2 : Test_Null (SM3_KDF hash
      (toBytesBE 32 (xfun (pmul k pubKey)) ++ toBytesBE 32 (yfun (pmul k pubKey))) klen) = true
  · rw [if_pos h2] at hok
    exact absurd hok (by simp)
  rw [if_neg h2] at hok
  simp only [Except.ok.injEq] at hok
  subst hok
  have hXl : (toBytesBE 32 (xfun (pmul k Gidx))).length = 32 := toBytesBE_length 32 _
  have hYl : (toBytesBE 32 (yfun (pmul k Gidx))).length = 32 := toBytesBE_length 32 _
  have hC3l : (hash (toBytesBE 32 (xfun (pmul k pubKey)) ++ M ++
      toBytesBE 32 (yfun (pmul k pubKey)))).length = 32 := hhash _
  have hC1l : (toBytesBE 32 (xfun (pmul k Gidx)) ++ toBytesBE 32 (yfun (pmul k Gidx))).length
      = 64 := by
    rw [List.length_append, hXl, hYl]
  have hKl : (SM3_KDF hash
      (toBytesBE 32 (xfun (pmul k pubKey)) ++ toBytesBE 32 (yfun (pmul k pubKey)))
      klen).length = klen := SM3_KDF_length hash hhash _ _
  refine ⟨?_, ?_, ?_, ?_⟩
  · simp only [List.length_append, List.length_zipWith, hXl, hYl, hC3l, hKl, hM]
    omega
  · rw [List.append_assoc]
    exact List.take_left' hC1l
  · rw [List.append_assoc, List.drop_left' hC1l]
    exact List.take_left' hC3l
  · apply List.drop_left'
    rw [List.length_append, hC1l, hC3l]

theorem SM2_Encrypt_layout_witness :
    ((toBytesBE 32 0 ++ toBytesBE 32 0 ++ ([9] ++ List.replicate 31 0) ++ [12, 6]).take 64
        = toBytesBE 32 0 ++ toBytesBE 32 0) :=
  (SM2_Encrypt_layout (fun _ => [9] ++ List.replicate 31 0) (fun _ => 0) (fun _ => 0)
    [1] 1 [5, 6] 2
    (toBytesBE 32 0 ++ toBytesBE 32 0 ++ ([9] ++ List.replicate 31 0) ++ [12, 6])
    (fun _ => by simp) (by decide) (by rfl)).2.1

/-- C10: `SM2_Decrypt` is not atomic on authentication failure.  The KDF
stream and then the XOR-derived candidate plaintext are written into the
caller's buffer before the `C3` tag is compared, so whenever the function
returns `ERR_C3_MATCH` the buffer already holds the full candidate
plaintext `C2 ⊕ KDF(x2 ‖ y2)` instead of being left unchanged. -/
theorem SM2_Decrypt_nonatomic (hash : List ℕ → List ℕ) (xfun yfun : ℕ → ℕ)
    (pset : ℕ → ℕ → Option ℕ) (dB : ℕ) (C : List ℕ) (Clen : ℕ) (P : ℕ)
    (hps : pset (fromBytesBE (C.take 32)) (fromBytesBE ((C.drop 32).take 32)) = some P)
    (hcode : (SM2_Decrypt hash xfun yfun pset dB C Clen).1 = ENC_ERR_C3_MATCH) :
    (SM2_Decrypt hash xfun yfun pset dB C Clen).2 =
      List.zipWith (fun a b => a ^^^ b)
        (SM3_KDF hash (toBytesBE 32 (xfun (pmul dB P)) ++ toBytesBE 32 (yfun (pmul dB P)))
          (Clen - 96))
        ((C.drop 96).take (Clen - 96)) := by
  simp only [SM2_Decrypt, hps] at hcode ⊢
  split_ifs at hcode ⊢ with h1 h2 h3
  · exact absurd hcode (by decide)
  · exact absurd hcode (by simp [ENC_ERR_ARRAY_NULL, ENC_ERR_C3_MATCH])
  · exact absurd hcode (by simp [ENC_ERR_C3_MATCH])
  · rfl

theorem SM2_Decrypt_nonatomic_witness :
    (SM2_Decrypt (fun _ => List.replicate 32 1) (fun _ => 0) (fun _ => 0)
        (fun _ _ => some 1) 1 (List.replicate 100 0) 100).2 =
      List.zipWith (fun a b => a ^^^ b)
        (SM3_KDF (fun _ => List.replicate 32 1)
          (toBytesBE 32 0 ++ toBytesBE 32 0) (100 - 96))
        (((List.replicate 100 0 : List ℕ).drop 96).take (100 - 96)) :=
  SM2_Decrypt_nonatomic (fun _ => List.replicate 32 1) (fun _ => 0) (fun _ => 0)
    (fun _ _ => some 1) 1 (List.replicate 100 0) 100 1 (by rfl) (by rfl)

/-- C2: encrypt-then-decrypt roundtrip.  For a private key `dB`, a message
`M` of any byte length `klen`, and a random `k ∈ [1, n-1]`, if
`SM2_Encrypt` under the public key `dB·G` succeeds with ciphertext `C`,
then `SM2_Decrypt` of `C` under `dB` returns code 0 with the output buffer
equal to `M`. -/
theorem SM2_encrypt_decrypt (hash : List ℕ → List ℕ) (xfun yfun : ℕ → ℕ)
    (pset : ℕ → ℕ → Option ℕ) (randK : List ℕ) (dB : ℕ) (M : List ℕ) (klen : ℕ)
    (C : List ℕ)
    (hhash : ∀ bs, (hash bs).length = 32) (hM : M.length = klen)
    (hxb : ∀ j, xfun j < 2 ^ 256) (hyb : ∀ j, yfun j < 2 ^ 256)
    (hk1 : 1 ≤ fromBytesBE (randK.take 32))
    (hk2 : fromBytesBE (randK.take 32) ≤ SM2n - 1)
    (hpset : pset (xfun (pmul (fromBytesBE (randK.take 32)) Gidx))
        (yfun (pmul (fromBytesBE (randK.take 32)) Gidx))
      = some (pmul (fromBytesBE (randK.take 32)) Gidx))
    (hok : SM2_Encrypt hash xfun yfun randK (pmul dB Gidx) M klen = Except.ok C) :
    SM2_Decrypt hash xfun yfun pset dB C (klen + 96) = (0, M) := by
  have hMt : M.take klen = M := by
    rw [← hM]
    exact List.take_length M
  simp only [SM2_Encrypt, hMt] at hok
  set k := fromBytesBE (randK.take 32) with hkdef
  by_cases h1 : pinf (pmul 1 (pmul dB Gidx))
  · rw [if_pos h1] at hok
    exact absurd hok (by simp)
  rw [if_neg h1] at hok
  by_cases h2 : Test_Null (SM3_KDF hash
      (toBytesBE 32 (xfun (pmul k (pmul dB Gidx))) ++
        toBytesBE 32 (yfun (pmul k (pmul dB Gidx)))) klen) = true
  · rw [if_pos h2] at hok
    exact absurd hok (by simp)
  rw [if_neg h2] at hok
  simp only [Except.ok.injEq] at hok
  subst hok
  set Xb := toBytesBE 32 (xfun (pmul k Gidx)) with hXb
  set Yb := toBytesBE 32 (yfun (pmul k Gidx)) with hYb
  set x2b := toBytesBE 32 (xfun (pmul k (pmul dB Gidx))) with hx2b
  set y2b := toBytesBE 32 (yfun (pmul k (pmul dB Gidx))) with hy2b
  set t := SM3_KDF hash (x2b ++ y2b) klen with ht
  set C3 := hash (x2b ++ M ++ y2b) with hC3
  set C2 := List.zipWith (fun a b => a ^^^ b) M t with hC2
  have hkn : k < SM2n := by
    have := SM2n_gt_one
    omega
  have hmm : ∀ a b c : ℕ, a * (b * c % SM2n) % SM2n = a * b * c % SM2n := by
    intro a b c
    rw [Nat.mul_mod, Nat.mod_mod_of_dvd _ dvd_rfl, ← Nat.mul_mod, ← mul_assoc]
  have hcomm : pmul dB (pmul k Gidx) = pmul k (pmul dB Gidx) := by
    simp only [pmul]
    rw [hmm, hmm, Nat.mul_comm dB k]
  have hk1G : pmul 1 (pmul k Gidx) = k := by
    simp only [pmul, Gidx, mul_one, one_mul]
    rw [Nat.mod_mod_of_dvd _ dvd_rfl]
    exact Nat.mod_eq_of_lt hkn
  have hninf : ¬ pinf (pmul 1 (pmul k Gidx)) := by
    simp only [pinf, hk1G]
    rw [Nat.mod_eq_of_lt hkn]
    omega
  have hXl : Xb.length = 32 := by
    rw [hXb]
    exact toBytesBE_length 32 _
  have hYl : Yb.length = 32 := by
    rw [hYb]
    exact toBytesBE_length 32 _
  have hC3l : C3.length = 32 := by
    rw [hC3]
    exact hhash _
  have htl : t.length = klen := by
    rw [ht]
    exact SM3_KDF_length hash hhash _ _
  have hC2l : C2.length = klen := by
    rw [hC2, List.length_zipWith, htl, hM]
    exact min_self klen
  have hC1l : (Xb ++ Yb).length = 64 := by
    rw [List.length_append, hXl, hYl]
  have h96 : ((Xb ++ Yb) ++ C3).length = 96 := by
    rw [List.length_append, hC1l, hC3l]
  have hklen : klen + 96 - 96 = klen := Nat.add_sub_cancel klen 96
  have hs1 : (((Xb ++ Yb) ++ C3) ++ C2).take 32 = Xb := by
    rw [List.append_assoc, List.append_assoc]
    exact List.take_left' hXl
  have hs2 : ((((Xb ++ Yb) ++ C3) ++ C2).drop 32).take 32 = Yb := by
    rw [List.append_assoc, List.append_assoc, List.drop_left' hXl]
    exact List.take_left' hYl
  have hs3 : ((((Xb ++ Yb) ++ C3) ++ C2).drop 64).take 32 = C3 := by
    rw [List.append_assoc, List.drop_left' hC1l]
    exact List.take_left' hC3l
  have hs4 : (((Xb ++ Yb) ++ C3) ++ C2).drop 96 = C2 := List.drop_left' h96
  have hpx : fromBytesBE Xb = xfun (pmul k Gidx) := by
    rw [hXb]
    exact fromBytesBE_toBytesBE32 (hxb _)
  have hpy : fromBytesBE Yb = yfun (pmul k Gidx) := by
    rw [hYb]
    exact fromBytesBE_toBytesBE32 (hyb _)
  have hC2t : C2.take klen = C2 := List.take_of_length_le (le_of_eq hC2l)
  have hMout : List.zipWith (fun a b => a ^^^ b) t C2 = M := by
    rw [hC2]
    exact zipWith_xor_cancel t M (hM.trans htl.symm)
  have hC3t : C3.take 32 = C3 := List.take_of_length_le (le_of_eq hC3l)
  simp only [SM2_Decrypt, hklen, hs1, hs2, hpx, hpy, hpset]
  simp only [hcomm, ← hx2b, ← hy2b, ← ht, hs4, hC2t, hMout, ← hC3, hC3t, hs3]
  rw [if_neg hninf, if_neg h2, if_pos trivial]

theorem SM2_encrypt_decrypt_witness :
    SM2_Decrypt (fun _ => [9] ++ List.replicate 31 0) (fun _ => 0) (fun _ => 0)
      (fun _ _ => some 1) 1
      (toBytesBE 32 0 ++ toBytesBE 32 0 ++ ([9] ++ List.replicate 31 0) ++ [12, 6])
      (2 + 96) = (0, [5, 6]) :=
  SM2_encrypt_decrypt (fun _ => [9] ++ List.replicate 31 0) (fun _ => 0) (fun _ => 0)
    (fun _ _ => some 1) [1] 1 [5, 6] 2
    (toBytesBE 32 0 ++ toBytesBE 32 0 ++ ([9] ++ List.replicate 31 0) ++ [12, 6])
    (fun _ => by simp) (by decide) (fun _ => Nat.two_pow_pos 256) (fun _ => Nat.two_pow_pos 256)
    (by decide) (by decide) (by rfl) (by rfl)
